import Mathlib

set_option linter.unusedVariables false
set_option linter.unnecessarySeqFocus false

/- Batteries marks the core `Rat` arithmetic irreducible, which blocks
plain `decide`/`rfl` evaluation of concrete rational computations; restore
the default reducibility for this file so witnesses can be evaluated. -/
attribute [local semireducible] Rat.sub Rat.add Rat.mul Rat.inv

/-
Shallow embedding of the TimeAdapt statistical core
(`scripts/timeadapt.py` and `src/add.mutations.py`).

Modelling conventions:
* Python floats are modelled as exact rationals (`ℚ`).
* The NumPy / SciPy random draws enter as explicit oracle arguments that
  hold the drawn values (`st.binom.rvs`, `st.poisson.rvs`,
  `np.random.random`, ...); the distribution parameters that only shape a
  draw's law (such as `p_derived`) are kept in the definitions but have no
  influence on the returned value, exactly as in the source.
* Python exceptions and the implicit `None` return of a function body that
  falls through without `return` are modelled by explicit result types.
* `math.log(2)` is irrational, so recombination-rate values are modelled
  by a two-constructor type keeping that constant symbolic.
-/

/-- Result of a Python call: a returned value, a raised exception, or the
implicit `None` returned when the function body falls through without
executing any `return` statement. -/
inductive PyResult (α : Type) where
  | ok (val : α)
  | raised (msg : String)
  | noneVal
deriving DecidableEq

/-- A recombination-rate value: either a rate read from the input table (a
float, embedded as an exact rational) or the synthetic inter-chromosome
rate `math.log(2)`, kept symbolic because it is irrational. -/
inductive RecRate where
  | of (r : ℚ)
  | log2
deriving DecidableEq

/-- Python `list.insert(i, a)`: insert before index `i`, clamping to the
end of the list when `i` is past it. -/
def pyInsert {α : Type} (i : ℕ) (a : α) : List α → List α
  | [] => [a]
  | x :: xs =>
    match i with
    | 0 => a :: x :: xs
    | j + 1 => x :: pyInsert j a xs

/-- `np.cumsum` with a running accumulator. -/
def cumsumFrom (acc : ℤ) : List ℤ → List ℤ
  | [] => []
  | x :: xs => (acc + x) :: cumsumFrom (acc + x) xs

/-- `np.cumsum` on a list of integers. -/
def cumsum (l : List ℤ) : List ℤ := cumsumFrom 0 l

/-- `np.all(pos[1:] > pos[:-1])`: consecutive entries strictly increase. -/
def chainLt : List ℤ → Bool
  | [] => true
  | [_] => true
  | a :: b :: rest => decide (a < b) && chainLt (b :: rest)

/-- Fuel-driven search for the smallest `k` with `n2 < 10 ^ (2 * k + 1)`. -/
def rlogSearch (n2 : ℕ) : ℕ → ℕ → ℕ
  | k, 0 => k
  | k, fuel + 1 => if n2 < 10 ^ (2 * k + 1) then k else rlogSearch n2 (k + 1) fuel

/-- `int(round(np.log10(n)))` for an integer `n ≥ 1`: the integer nearest
to `log10 n`, characterised without real numbers as the smallest `k` with
`n² < 10 ^ (2k + 1)` (i.e. `log10 n < k + 1/2`; a tie would need the
irrational value `10 ^ (k + 1/2)` to be an integer, so ties cannot occur).
Float evaluation of `np.log10` is assumed exact at this granularity. -/
def round_log10 (n : ℕ) : ℕ := rlogSearch (n * n) 0 (n + 1)

/-- `⌊x⌋` computed directly on the rational representation (this is the
value of Mathlib's `⌊x⌋`, by `Rat.floor_def`, but kernel-reducible). -/
def ratFloor (x : ℚ) : ℤ := x.num / x.den

/-- Python 3 `round` on an exact rational: round half to even (away from
a half, `round x = ⌊x + 1/2⌋`). -/
def pyround (x : ℚ) : ℤ :=
  let n := ratFloor x
  if x - (n : ℚ) = 1 / 2 then (if n % 2 = 0 then n else n + 1)
  else ratFloor (x + 1 / 2)

/-- `scripts/timeadapt.py`, `snp_calling`.  The two stochastic draws
`st.binom.rvs(f_num_reads, p_derived)` and
`st.binom.rvs(1, derived_reads / f_num_reads)` enter as the oracle
arguments `derived_draw` and `allele_draw` holding the drawn values (a
valid Bernoulli draw satisfies `allele_draw ≤ 1`, a valid binomial draw
`derived_draw ≤ f_num_reads`).  `p_derived` only parameterises the first
draw's distribution, as in the source.  The statement
`genotype_call = [1, 1]` placed just before the ratio test in the source
is dead: every branch of the if/elif/else that follows overwrites it, so
it contributes nothing to the returned value. -/
def snp_calling (true_genotype : List ℤ) (f_num_reads : ℕ) (error_rate : ℚ)
    (reads_th : ℕ) (score_th : ℕ) (ratio_th : ℚ) (dr : Bool) (transversion : Bool)
    (derived_draw : ℕ) (allele_draw : ℕ) : ℤ × ℤ :=
  if dr = false ∧ transversion = false then (-1, -1)
  else if reads_th ≤ f_num_reads then
    let derived_count : ℤ := true_genotype.sum
    let p_derived : ℚ :=
      (derived_count : ℚ) / 2 * (1 - error_rate) + (1 - (derived_count : ℚ) / 2) * error_rate
    let derived_reads : ℕ := derived_draw
    let ancestral_reads : ℕ := f_num_reads - derived_reads
    if score_th ≤ f_num_reads then
      if derived_reads = 0 then (0, 0)
      else if ancestral_reads = 0 then (1, 1)
      else
        let ratio_of_scores : ℚ := (derived_reads : ℚ) / (ancestral_reads : ℚ)
        if 1 / ratio_th ≤ ratio_of_scores ∧ ratio_of_scores ≤ ratio_th then (0, 1)
        else if ancestral_reads < derived_reads then (1, 1)
        else (0, 0)
    else ((allele_draw : ℤ), (allele_draw : ℤ))
  else (-1, -1)

/-- Default `reads_th` of `snp_calling` in `scripts/timeadapt.py`. -/
def timeadapt_reads_th_default : ℕ := 8

namespace AddMutations

/-- `src/add.mutations.py`, `snp_calling`.  Token for token the same
computation as the `scripts/timeadapt.py` version (it lacks that file's
dead `genotype_call = [1, 1]` pre-assignment); only the default value of
`reads_th` differs between the two definitions (1 here, 8 there). -/
def snp_calling (true_genotype : List ℤ) (f_num_reads : ℕ) (error_rate : ℚ)
    (reads_th : ℕ) (score_th : ℕ) (ratio_th : ℚ) (dr : Bool) (transversion : Bool)
    (derived_draw : ℕ) (allele_draw : ℕ) : ℤ × ℤ :=
  if dr = false ∧ transversion = false then (-1, -1)
  else if reads_th ≤ f_num_reads then
    let derived_count : ℤ := true_genotype.sum
    let p_derived : ℚ :=
      (derived_count : ℚ) / 2 * (1 - error_rate) + (1 - (derived_count : ℚ) / 2) * error_rate
    let derived_reads : ℕ := derived_draw
    let ancestral_reads : ℕ := f_num_reads - derived_reads
    if score_th ≤ f_num_reads then
      if derived_reads = 0 then (0, 0)
      else if ancestral_reads = 0 then (1, 1)
      else
        let ratio_of_scores : ℚ := (derived_reads : ℚ) / (ancestral_reads : ℚ)
        if 1 / ratio_th ≤ ratio_of_scores ∧ ratio_of_scores ≤ ratio_th then (0, 1)
        else if ancestral_reads < derived_reads then (1, 1)
        else (0, 0)
    else ((allele_draw : ℤ), (allele_draw : ℤ))
  else (-1, -1)

/-- Default `reads_th` of `snp_calling` in `src/add.mutations.py`. -/
def reads_th_default : ℕ := 1

end AddMutations

/-- `scripts/timeadapt.py`, `make_rec_map`.  The source loop appends
`c_ends[i]` and `c_ends[i] + 1` to `pos` and `c_rates[i]`, `math.log(2)`
to `rat` for each `i < nchr - 1`, then appends the last chromosome's end
and rate; the bind below is that loop. -/
def make_rec_map (nchr : ℕ) (c_rates : List ℚ) (c_ends : List ℤ) :
    List ℤ × List RecRate :=
  ((0 : ℤ) ::
      (((List.range (nchr - 1)).flatMap fun i => [c_ends.getD i 0, c_ends.getD i 0 + 1])
        ++ [c_ends.getD (nchr - 1) 0]),
    ((List.range (nchr - 1)).flatMap fun i => [RecRate.of (c_rates.getD i 0), RecRate.log2])
      ++ [RecRate.of (c_rates.getD (nchr - 1) 0)])

/-- Python `max` over a (nonempty) list of integers. -/
def listMax (l : List ℤ) : ℤ := l.foldl max (l.headD 0)

/-- `scripts/timeadapt.py`, `get_genome_map`, on the three columns of the
genome table (`Chromosome`, `Recombination_rate`, `Length`): the
chromosome count is `max(table["Chromosome"])`, the rates are returned
as-is and the ends are the cumulative sums of the lengths. -/
def get_genome_map (chromosomes : List ℤ) (rates : List ℚ) (lengths : List ℤ) :
    ℤ × List ℚ × List ℤ :=
  (listMax chromosomes, rates, cumsum lengths)

/-- `np.where(np.diff(chromosomes) == 1)[0]` in `get_recombination_map`. -/
def diffOneIdx (chromosomes : List ℤ) : List ℕ :=
  (List.range (chromosomes.length - 1)).filter fun i =>
    chromosomes.getD (i + 1) 0 - chromosomes.getD i 0 = 1

/-- `chr_ends_index` of `get_recombination_map` (boundary indices found by
`np.diff == 1`, plus the final row index). -/
def chr_ends_index (chromosomes : List ℤ) : List ℕ :=
  diffOneIdx chromosomes ++ [chromosomes.length - 1]

/-- The position-rescaling loop of `get_recombination_map`: walk the
positions with a `chromo` counter, adding `rescaling_values[chromo]` to
each position and incrementing `chromo` after each index contained in
`chr_ends_index`. -/
def rescale_loop (cei : List ℕ) (resc : List ℤ) (positions : List ℤ) : List ℤ :=
  ((positions.enum).foldl
      (fun (st : List ℤ × ℕ) ip =>
        (st.1 ++ [ip.2 + resc.getD st.2 0], if ip.1 ∈ cei then st.2 + 1 else st.2))
      ([], 0)).1

/-- The breakpoint-insertion loop of `get_recombination_map`: for each
`chromo < nchr - 1`, insert `positions[cei[chromo] + chromo] + 1` and
`math.log(2)` at index `cei[chromo] + 1 + chromo`.  Python list indexing
out of range raises `IndexError` (while `list.insert` clamps). -/
def insert_body (cei : List ℕ) (pr : List ℤ × List RecRate) (chromo : ℕ) :
    Except String (List ℤ × List RecRate) :=
  match cei.get? chromo with
  | none => Except.error "IndexError: list index out of range"
  | some ce =>
    match pr.1.get? (ce + chromo) with
    | none => Except.error "IndexError: list index out of range"
    | some p =>
      Except.ok (pyInsert (ce + 1 + chromo) (p + 1) pr.1,
        pyInsert (ce + 1 + chromo) RecRate.log2 pr.2)

def insert_loop (cei : List ℕ) (nchr : ℕ) (ppos : List ℤ) (prat : List RecRate) :
    Except String (List ℤ × List RecRate) :=
  (List.range (nchr - 1)).foldlM (insert_body cei) (ppos, prat)

/-- `scripts/timeadapt.py`, `get_recombination_map`, on the three columns
of the genome table (`Chromosome`, `Position`, `Recombination_rate`).
Returns `(nchr, rates, positions)` as the source does. -/
def get_recombination_map (chromosomes positions : List ℤ) (rates : List ℚ) :
    Except String (ℤ × List RecRate × List ℤ) := do
  let nchr := listMax chromosomes
  let cei := chr_ends_index chromosomes
  let chr_ends := cei.map fun i => positions.getD i 0
  let resc := (0 : ℤ) :: cumsum chr_ends
  let pos1 := rescale_loop cei resc positions
  let pr ← insert_loop cei nchr.toNat pos1 (rates.map RecRate.of)
  Except.ok (nchr, pr.2, 0 :: pr.1)

/-- An `allel.GenotypeArray` of diploid calls: rows indexed by locus, one
`(ℤ × ℤ)` call per sample in each row; `n_samples` is the sample
dimension of the array's shape. -/
structure GenotypeArray where
  rows : List (List (ℤ × ℤ))
  n_samples : ℕ
deriving DecidableEq

/-- `GenotypeArray.to_n_alt(fill := -1)` on one diploid call: the number
of non-reference alleles, or `-1` when the call is missing (scikit-allel
treats a call with any negative allele as missing). -/
def to_n_alt (c : ℤ × ℤ) : ℤ :=
  if c.1 < 0 ∨ c.2 < 0 then -1
  else (if 0 < c.1 then 1 else 0) + (if 0 < c.2 then 1 else 0)

/-- Column `ind` of a genotype array (`ga[:, ind]`). -/
def columnOf (ga : GenotypeArray) (ind : ℕ) : List (ℤ × ℤ) :=
  ga.rows.map fun row => row.getD ind (-1, -1)

/-- `np.where(gv.to_n_alt(fill=-1) == 1)[0]`: indices of heterozygous
calls. -/
def het_sites (gv : List (ℤ × ℤ)) : List ℕ :=
  (List.range gv.length).filter fun i => to_n_alt (gv.getD i (-1, -1)) = 1

/-- `np.diff` on a list of integers. -/
def npDiff : List ℤ → List ℤ
  | a :: b :: rest => (b - a) :: npDiff (b :: rest)
  | _ => []

/-- `scripts/timeadapt.py`, `roh`: gaps between consecutive heterozygous
positions of one sample. -/
def roh (gv : List (ℤ × ℤ)) (positions : List ℤ) : List ℤ :=
  npDiff ((het_sites gv).map fun i => positions.getD i 0)

/-- `scripts/timeadapt.py`, `distribution_roh`.  The guard mirrors
`np.all(pos[1:] > pos[:-1])`; when it fails the source function falls
through without any `return` or `raise`, i.e. it returns `None`.  Inside
the guard, for each sample and each `roh_size` bucket the source adds
`sum(lens >= 10^k) - sum(lens >= 10^(k+1))` to `roh_distribution[k]`, and
raises `ValueError` if any accumulated bucket is negative. -/
def distribution_roh (ga : GenotypeArray) (positions : List ℤ) (chr_end : ℕ) :
    PyResult (List ℤ) :=
  if chainLt positions then
    let nb := round_log10 chr_end + 1
    let hist :=
      (List.range ga.n_samples).foldl
        (fun hist ind =>
          let lens := roh (columnOf ga ind) positions
          (List.range nb).map fun k =>
            hist.getD k 0 + ((lens.countP fun g => decide ((10 : ℤ) ^ k ≤ g)) : ℤ)
              - ((lens.countP fun g => decide ((10 : ℤ) ^ (k + 1) ≤ g)) : ℤ))
        (List.replicate nb (0 : ℤ))
    if hist.any fun x => decide (x < 0) then
      PyResult.raised "Negative number of ROH. Possibly wrong vector of positions"
    else PyResult.ok hist
  else PyResult.noneVal

/-- One variant yielded by the tree-sequence iterator in `sequencing`:
its (float) position, the number of distinct alleles at the site, and the
flat haplotype vector (`variant.genotypes`, two entries per sample). -/
structure Variant where
  position : ℚ
  alleles : ℕ
  genotypes : List ℤ
deriving DecidableEq

/-- Oracle for the per-site random draws of `sequencing`: the per-sample
Poisson read depths (`np.random.poisson(lam=cov, size=ssize)`), the
uniform draw that labels the site transition/transversion
(`np.random.random()`), and the per-sample binomial and Bernoulli draws
consumed inside `snp_calling`. -/
structure SiteDraws where
  num_reads : ℕ → ℕ
  u : ℚ
  derived : ℕ → ℕ
  allele : ℕ → ℕ

/-- `scripts/timeadapt.py`, `sequencing`.  Raises `ValueError` when the
coverage vector's length differs from `ssize`; otherwise builds one row of
calls per variant (multi-allelic sites become fully missing rows, the
`snp_calling` defaults `reads_th = 8`, `score_th = 10`, `ratio_th = 3`
apply) and the list of rounded variant positions. -/
def sequencing (variants : List Variant) (ssize : ℕ) (ttr seq_error : ℚ)
    (dr : List Bool) (cov : List ℚ) (draws : ℕ → SiteDraws) :
    Except String (List (List (ℤ × ℤ)) × List ℤ) :=
  if cov.length ≠ ssize then
    Except.error "Number of coverage values and number of samples (ssize) do not match"
  else
    Except.ok
      (variants.enum.map fun lv =>
        let d := draws lv.1
        let transversion_snp := if d.u < ttr / (ttr + 1) then false else true
        (List.range ssize).map fun s =>
          if lv.2.alleles = 2 then
            snp_calling [lv.2.genotypes.getD (2 * s) 0, lv.2.genotypes.getD (2 * s + 1) 0]
              (d.num_reads s) seq_error 8 10 3 (dr.getD s true) transversion_snp
              (d.derived s) (d.allele s)
          else (-1, -1),
      variants.map fun v => pyround v.position)

/-- All calls of a genotype matrix lie in the four legal diploid pairs
`(-1,-1)`, `(0,0)`, `(0,1)`, `(1,1)`. -/
def rowsOk (m : List (List (ℤ × ℤ))) : Bool :=
  m.all fun row => row.all fun c =>
    decide (c = (-1, -1) ∨ c = (0, 0) ∨ c = (0, 1) ∨ c = (1, 1))

/- Spec-side description of a well-formed genome table for
`get_recombination_map`: the table rows grouped into per-chromosome
blocks of local positions (`bs`) and rates (`rss`), chromosome indices
contiguous ascending from 1. -/

/-- The `Chromosome` column of a well-formed genome table built from
per-chromosome row blocks, numbering chromosomes contiguously from `v`. -/
def tableChromFrom (v : ℤ) : List (List ℤ) → List ℤ
  | [] => []
  | b :: rest => (b.map fun _ => v) ++ tableChromFrom (v + 1) rest

/-- Index of the last row of each block inside the flattened table. -/
def blockEnds : List (List ℤ) → List ℕ
  | [] => []
  | b :: rest => (b.length - 1) :: (blockEnds rest).map fun i => i + b.length

/-- Number of table rows occupied by the first `c` blocks. -/
def lensSum {α : Type} (bs : List (List α)) (c : ℕ) : ℕ := ((bs.take c).map List.length).sum

/-- Cumulative chromosome end (sum of the last local position of each of
the first `c` blocks). -/
def lastsSum (bs : List (List ℤ)) (c : ℕ) : ℤ :=
  ((bs.take c).map fun b => b.getLastD 0).sum

/-- Per-chromosome positions shifted by the cumulative end of the
preceding chromosomes: the intended effect of the rescaling loop. -/
def rescaled : List (List ℤ) → ℤ → List ℤ
  | [], _ => []
  | b :: rest, off => (b.map fun p => p + off) ++ rescaled rest (off + b.getLastD 0)

/-- Rescaled positions with the synthetic `end + 1` breakpoint inserted
after every chromosome but the last. -/
def withBreaks : List (List ℤ) → ℤ → List ℤ
  | [], _ => []
  | [b], off => b.map fun p => p + off
  | b :: c :: rest, off =>
      (b.map fun p => p + off)
        ++ (off + b.getLastD 0 + 1) :: withBreaks (c :: rest) (off + b.getLastD 0)

/-- Table rates with the synthetic `math.log(2)` rate inserted between
adjacent chromosome blocks. -/
def ratWithBreaks : List (List ℚ) → List RecRate
  | [] => []
  | [rb] => rb.map RecRate.of
  | rb :: c :: rest => rb.map RecRate.of ++ RecRate.log2 :: ratWithBreaks (c :: rest)

/-- First `c` blocks in rescaled-with-breakpoint form (the part of the
position list already processed by the insertion loop). -/
def brTake : List (List ℤ) → ℕ → ℤ → List ℤ
  | _, 0, _ => []
  | [], _ + 1, _ => []
  | b :: rest, c + 1, off =>
      (b.map fun p => p + off)
        ++ (off + b.getLastD 0 + 1) :: brTake rest c (off + b.getLastD 0)

/-- First `c` rate blocks with their trailing `math.log(2)` breakpoints. -/
def ratBrTake : List (List ℚ) → ℕ → List RecRate
  | _, 0 => []
  | [], _ + 1 => []
  | rb :: rest, c + 1 => rb.map RecRate.of ++ RecRate.log2 :: ratBrTake rest c

/-- Recursive form of the position-rescaling loop: walk the indexed
positions, keeping the `chromo` counter explicit. -/
def rescGo (cei : List ℕ) (resc : List ℤ) : List (ℕ × ℤ) → ℕ → List ℤ
  | [], _ => []
  | ip :: rest, k =>
      (ip.2 + resc.getD k 0) :: rescGo cei resc rest (if ip.1 ∈ cei then k + 1 else k)

/-- A `Decidable` instance for `List.Chain'` that reduces by kernel
computation (the Mathlib instance is built with tactics and gets stuck on
`Eq.rec` during `decide`). -/
instance (priority := 1100) chain'Dec {α : Type} {R : α → α → Prop} [DecidableRel R] :
    (l : List α) → Decidable (List.Chain' R l)
  | [] => isTrue List.chain'_nil
  | [a] => isTrue (List.chain'_singleton a)
  | a :: b :: t =>
    have : Decidable (List.Chain' R (b :: t)) := chain'Dec (b :: t)
    decidable_of_iff (R a b ∧ List.Chain' R (b :: t)) List.chain'_cons.symm

/- ················· theorems ················· -/

section SnpCallingClaims

/-- Helper: with a valid Bernoulli draw, `snp_calling` only ever returns
one of the four pairs `(-1,-1)`, `(0,0)`, `(0,1)`, `(1,1)`. -/
theorem snp_calling_mem_four (tg : List ℤ) (depth : ℕ) (err : ℚ)
    (rth sth : ℕ) (ratio_th : ℚ) (dr tv : Bool) (dd ad : ℕ) (had : ad ≤ 1) :
    snp_calling tg depth err rth sth ratio_th dr tv dd ad = (-1, -1)
      ∨ snp_calling tg depth err rth sth ratio_th dr tv dd ad = (0, 0)
      ∨ snp_calling tg depth err rth sth ratio_th dr tv dd ad = (0, 1)
      ∨ snp_calling tg depth err rth sth ratio_th dr tv dd ad = (1, 1) := by
  have hac : ad = 0 ∨ ad = 1 := by omega
  rcases hac with h | h <;> subst h <;>
    simp only [snp_calling] <;> split_ifs <;> simp

/-- Claim C1: in the discrete-call regime (sample damage-repaired or site
a transversion, read depth at least both `reads_th` and `score_th`),
`snp_calling` returns `(0,0)` when `derived_reads = 0`, else `(1,1)` when
`ancestral_reads = 0`, else `(0,1)` when the score ratio lies inside
`[1/ratio_th, ratio_th]`, else `(1,1)` when `derived > ancestral`, else
`(0,0)`, for every draw with `derived + ancestral = depth`. -/
theorem C1_snp_calling_discrete_regime
    (tg : List ℤ) (depth : ℕ) (err : ℚ) (reads_th score_th : ℕ) (ratio_th : ℚ)
    (dr tv : Bool) (dd ar ad : ℕ)
    (hdr : dr = true ∨ tv = true)
    (hreads : reads_th ≤ depth) (hscore : score_th ≤ depth)
    (hsum : dd + ar = depth) :
    snp_calling tg depth err reads_th score_th ratio_th dr tv dd ad =
      (if dd = 0 then ((0 : ℤ), (0 : ℤ))
       else if ar = 0 then (1, 1)
       else if 1 / ratio_th ≤ (dd : ℚ) / (ar : ℚ) ∧ (dd : ℚ) / (ar : ℚ) ≤ ratio_th then (0, 1)
       else if ar < dd then (1, 1)
       else (0, 0)) := by
  have hg : ¬ (dr = false ∧ tv = false) := by
    rcases hdr with h | h <;> simp [h]
  have har : depth - dd = ar := by omega
  simp only [snp_calling, if_neg hg, if_pos hreads, if_pos hscore, har]

/-- Claim C2: `snp_calling` returns `(-1,-1)` exactly when the sample is
not damage-repaired and the site is a transition (`transversion = false`),
or the drawn read depth is below `reads_th`; on all other inputs (with a
valid Bernoulli draw) both entries of the call are in `{0, 1}`. -/
theorem C2_snp_calling_missing_iff
    (tg : List ℤ) (depth : ℕ) (err : ℚ) (reads_th score_th : ℕ) (ratio_th : ℚ)
    (dr tv : Bool) (dd ad : ℕ) (had : ad ≤ 1) :
    (snp_calling tg depth err reads_th score_th ratio_th dr tv dd ad = (-1, -1)
       ↔ ((dr = false ∧ tv = false) ∨ depth < reads_th))
      ∧ (¬ ((dr = false ∧ tv = false) ∨ depth < reads_th) →
          ((snp_calling tg depth err reads_th score_th ratio_th dr tv dd ad).1 = 0
              ∨ (snp_calling tg depth err reads_th score_th ratio_th dr tv dd ad).1 = 1)
            ∧ ((snp_calling tg depth err reads_th score_th ratio_th dr tv dd ad).2 = 0
              ∨ (snp_calling tg depth err reads_th score_th ratio_th dr tv dd ad).2 = 1)) := by
  constructor
  · simp only [snp_calling]
    split_ifs with h1 h2 h3 h4 h5 h6 h7 <;> simp [h1, Prod.ext_iff] <;> omega
  · intro hcond
    push_neg at hcond
    obtain ⟨hne1, hne2⟩ := hcond
    simp only [snp_calling]
    split_ifs with h1 h2 h3 h4 h5 h6 <;> simp_all <;> omega

/-- Claim C3 as stated is false on the code: with `dr = false`,
`transversion = false` and read depth `8` inside `[reads_th, score_th) =
[8, 10)`, `snp_calling` returns `(-1, -1)`, which is neither `(0,0)` nor
`(1,1)`. -/
theorem C3_counterexample :
    snp_calling [0, 1] 8 (1 / 200) 8 10 3 false false 4 1 = (-1, -1)
      ∧ ¬ (snp_calling [0, 1] 8 (1 / 200) 8 10 3 false false 4 1 = (0, 0)
            ∨ snp_calling [0, 1] 8 (1 / 200) 8 10 3 false false 4 1 = (1, 1)) := by
  decide

/-- Claim C3 (amended): when additionally the sample is damage-repaired or
the site is a transversion, a read depth in `[reads_th, score_th)` makes
`snp_calling` replicate the single Bernoulli draw (success probability
`derived_reads/depth`) across both chromosome copies, so the call is
`(0,0)` or `(1,1)` and never `(0,1)`. -/
theorem C3_snp_calling_pseudo_haploid
    (tg : List ℤ) (depth : ℕ) (err : ℚ) (reads_th score_th : ℕ) (ratio_th : ℚ)
    (dr tv : Bool) (dd ad : ℕ)
    (hdr : dr = true ∨ tv = true)
    (hreads : reads_th ≤ depth) (hscore : depth < score_th) (had : ad ≤ 1) :
    snp_calling tg depth err reads_th score_th ratio_th dr tv dd ad = ((ad : ℤ), (ad : ℤ))
      ∧ (snp_calling tg depth err reads_th score_th ratio_th dr tv dd ad = (0, 0)
          ∨ snp_calling tg depth err reads_th score_th ratio_th dr tv dd ad = (1, 1)) := by
  have hg : ¬ (dr = false ∧ tv = false) := by
    rcases hdr with h | h <;> simp [h]
  have hns : ¬ (score_th ≤ depth) := by omega
  have hval : snp_calling tg depth err reads_th score_th ratio_th dr tv dd ad
      = ((ad : ℤ), (ad : ℤ)) := by
    simp only [snp_calling, if_neg hg, if_pos hreads, if_neg hns]
  refine ⟨hval, ?_⟩
  have hac : ad = 0 ∨ ad = 1 := by omega
  rcases hac with h | h <;> subst h <;> rw [hval] <;> simp

end SnpCallingClaims

/-- Claim C7 as stated is false on the code: the two `snp_calling`
implementations (scripts/timeadapt.py and src/add.mutations.py) are
extensionally equal — for every input, thresholds included, and every
identical pair of draws they return the same genotype call (the `[1,1]`
pre-assignment in the timeadapt variant is dead code). -/
theorem C7_counterexample : @snp_calling = @AddMutations.snp_calling := rfl

/-- Claim C7 (amended): with identical inputs and identical draws the two
near-duplicate implementations return identical calls; the only
behavioural difference between the two files is the default `reads_th`
(8 vs 1), which produces different calls when each function is invoked
with its own default at read depths in `[1, 8)` — e.g. depth 5 yields
`(-1,-1)` under the timeadapt default but `(0,0)` under the
add.mutations default. -/
theorem C7_snp_calling_near_duplicates :
    snp_calling = AddMutations.snp_calling
      ∧ snp_calling [0, 1] 5 (1 / 200) timeadapt_reads_th_default 10 3 true true 0 0 = (-1, -1)
      ∧ AddMutations.snp_calling [0, 1] 5 (1 / 200) AddMutations.reads_th_default 10 3
          true true 0 0 = (0, 0)
      ∧ timeadapt_reads_th_default ≠ AddMutations.reads_th_default :=
  ⟨rfl, by decide, by decide, by decide⟩

/-- Claim C4 records the spec's intent (fail with `UnsortedPositions` on
non-monotonic positions); the code diverges: the sorted-check `if` of
`distribution_roh` has no `else` branch, so on unsorted positions the
function raises nothing and falls through, returning Python's implicit
`None`. -/
theorem C4_distribution_roh_unsorted_returns_none :
    distribution_roh ⟨[[(0, 1)], [(0, 1)]], 1⟩ [5, 3] 10 = PyResult.noneVal := by
  decide

/-- Witness for C1 at a concrete input: depth 12, thresholds (8, 10, 3),
draw 4 derived / 8 ancestral reads; the ratio 1/2 lies in `[1/3, 3]`. -/
theorem C1_witness :
    ((true : Bool) = true ∨ (true : Bool) = true) ∧ 8 ≤ 12 ∧ 10 ≤ 12 ∧ 4 + 8 = 12 ∧
      snp_calling [0, 1] 12 (1 / 200) 8 10 3 true true 4 0 =
        (if (4 : ℕ) = 0 then ((0 : ℤ), (0 : ℤ))
         else if (8 : ℕ) = 0 then (1, 1)
         else if 1 / (3 : ℚ) ≤ (4 : ℚ) / (8 : ℚ) ∧ (4 : ℚ) / (8 : ℚ) ≤ 3 then (0, 1)
         else if (8 : ℕ) < 4 then (1, 1)
         else (0, 0)) :=
  ⟨Or.inl rfl, by decide, by decide, by decide,
    C1_snp_calling_discrete_regime [0, 1] 12 (1 / 200) 8 10 3 true true 4 8 0 (Or.inl rfl)
      (by decide) (by decide) (by decide)⟩

/-- Witness for C2 at a concrete input. -/
theorem C2_witness :
    (0 : ℕ) ≤ 1 ∧
      ((snp_calling [0, 1] 3 (1 / 200) 8 10 3 true true 2 0 = (-1, -1)
          ↔ (((true : Bool) = false ∧ (true : Bool) = false) ∨ 3 < 8))
        ∧ (¬ (((true : Bool) = false ∧ (true : Bool) = false) ∨ 3 < 8) →
            ((snp_calling [0, 1] 3 (1 / 200) 8 10 3 true true 2 0).1 = 0
                ∨ (snp_calling [0, 1] 3 (1 / 200) 8 10 3 true true 2 0).1 = 1)
              ∧ ((snp_calling [0, 1] 3 (1 / 200) 8 10 3 true true 2 0).2 = 0
                ∨ (snp_calling [0, 1] 3 (1 / 200) 8 10 3 true true 2 0).2 = 1))) :=
  ⟨by decide, C2_snp_calling_missing_iff [0, 1] 3 (1 / 200) 8 10 3 true true 2 0 (by decide)⟩

/-- Witness for C3 (amended) at a concrete input: depth 9 in `[8, 10)`,
Bernoulli draw 1. -/
theorem C3_witness :
    ((true : Bool) = true ∨ (false : Bool) = true) ∧ 8 ≤ 9 ∧ 9 < 10 ∧ (1 : ℕ) ≤ 1 ∧
      (snp_calling [0, 1] 9 (1 / 200) 8 10 3 true false 4 1 = ((1 : ℤ), (1 : ℤ))
        ∧ (snp_calling [0, 1] 9 (1 / 200) 8 10 3 true false 4 1 = (0, 0)
            ∨ snp_calling [0, 1] 9 (1 / 200) 8 10 3 true false 4 1 = (1, 1))) :=
  ⟨Or.inl rfl, by decide, by decide, by decide,
    C3_snp_calling_pseudo_haploid [0, 1] 9 (1 / 200) 8 10 3 true false 4 1 (Or.inl rfl)
      (by decide) (by decide) (by decide)⟩

/-- Claim C10: every per-(site, sample) genotype call written by
`sequencing` — whether produced by `snp_calling` or by the
multi-allelic-site branch — is one of the four pairs `(-1,-1)`, `(0,0)`,
`(0,1)`, `(1,1)`; the reversed pair `(1,0)` and partially-missing pairs
never occur (valid Bernoulli draws assumed). -/
theorem C10_sequencing_calls_legal
    (variants : List Variant) (ssize : ℕ) (ttr seq_error : ℚ)
    (dr : List Bool) (cov : List ℚ) (draws : ℕ → SiteDraws)
    (hdraw : ∀ l s, (draws l).allele s ≤ 1)
    (m : List (List (ℤ × ℤ))) (ps : List ℤ)
    (hok : sequencing variants ssize ttr seq_error dr cov draws = Except.ok (m, ps)) :
    rowsOk m = true := by
  unfold sequencing at hok
  by_cases hc : cov.length ≠ ssize
  · rw [if_pos hc] at hok
    exact absurd hok (by simp)
  · rw [if_neg hc] at hok
    simp only [Except.ok.injEq, Prod.mk.injEq] at hok
    obtain ⟨hm, hp⟩ := hok
    subst hm
    simp only [rowsOk, List.all_eq_true]
    intro row hrow c hcell
    obtain ⟨lv, hlv, rfl⟩ := List.mem_map.mp hrow
    simp only [List.mem_map, List.mem_range] at hcell
    obtain ⟨s, hs, rfl⟩ := hcell
    rw [decide_eq_true_eq]
    by_cases ha : lv.2.alleles = 2
    · simp only [if_pos ha]
      have h4 := snp_calling_mem_four
        [lv.2.genotypes.getD (2 * s) 0, lv.2.genotypes.getD (2 * s + 1) 0]
        ((draws lv.1).num_reads s) seq_error 8 10 3 (dr.getD s true)
        (if (draws lv.1).u < ttr / (ttr + 1) then false else true)
        ((draws lv.1).derived s) ((draws lv.1).allele s) (hdraw lv.1 s)
      tauto
    · simp only [if_neg ha]
      tauto

/-- Witness for C10 at a concrete two-variant, one-sample run. -/
theorem C10_witness : rowsOk [[(0, 1)], [(0, 1)]] = true :=
  C10_sequencing_calls_legal
    [⟨51 / 5, 2, [0, 1]⟩, ⟨52 / 5, 2, [0, 1]⟩] 1 2 (1 / 200) [true] [5]
    (fun _ => ⟨fun _ => 10, 1, fun _ => 5, fun _ => 0⟩) (fun _ _ => Nat.zero_le 1)
    [[(0, 1)], [(0, 1)]] [10, 10] (by rfl)

section PyroundLemmas

theorem ratFloor_eq (x : ℚ) : ratFloor x = ⌊x⌋ := Rat.floor_def.symm

/-- `pyround` in terms of `⌊·⌋`, `Int.fract` and Mathlib's `round`. -/
theorem pyround_eq (x : ℚ) :
    pyround x =
      if Int.fract x = 1 / 2 then (if ⌊x⌋ % 2 = 0 then ⌊x⌋ else ⌊x⌋ + 1)
      else round x := by
  unfold pyround
  rw [ratFloor_eq, ratFloor_eq, ← round_eq, ← Int.self_sub_floor]

theorem floor_le_pyround (x : ℚ) : ⌊x⌋ ≤ pyround x := by
  rw [pyround_eq]
  split_ifs with h1 h2
  · exact le_refl _
  · omega
  · rw [round_eq]
    exact Int.floor_le_floor (by linarith)

theorem pyround_le_floor_add_one (x : ℚ) : pyround x ≤ ⌊x⌋ + 1 := by
  rw [pyround_eq]
  split_ifs with h1 h2
  · omega
  · exact le_refl _
  · rw [round_eq]
    have h2 : ⌊x + 1 / 2⌋ ≤ ⌊x + 1⌋ := Int.floor_le_floor (by linarith)
    rw [Int.floor_add_one] at h2
    exact h2

theorem pyround_of_fract_lt {x : ℚ} (h : Int.fract x < 1 / 2) : pyround x = ⌊x⌋ := by
  have hx : x - ⌊x⌋ < 1 / 2 := by rw [Int.self_sub_floor]; exact h
  have hx0 : (⌊x⌋ : ℚ) ≤ x := Int.floor_le x
  rw [pyround_eq]
  rw [if_neg (by intro hc; rw [hc] at h; linarith), round_eq]
  rw [Int.floor_eq_iff]
  constructor <;> [linarith; (push_cast; linarith)]

theorem pyround_of_fract_gt {x : ℚ} (h : 1 / 2 < Int.fract x) : pyround x = ⌊x⌋ + 1 := by
  have hx : 1 / 2 < x - ⌊x⌋ := by rw [Int.self_sub_floor]; exact h
  have hx1 : x - ⌊x⌋ < 1 := by rw [Int.self_sub_floor]; exact Int.fract_lt_one x
  rw [pyround_eq]
  rw [if_neg (by intro hc; rw [hc] at h; linarith), round_eq]
  rw [Int.floor_eq_iff]
  constructor <;> push_cast <;> linarith

theorem pyround_mono {x y : ℚ} (h : x ≤ y) : pyround x ≤ pyround y := by
  rcases lt_or_eq_of_le (Int.floor_le_floor h) with hf | hf
  · calc pyround x ≤ ⌊x⌋ + 1 := pyround_le_floor_add_one x
      _ ≤ ⌊y⌋ := by omega
      _ ≤ pyround y := floor_le_pyround y
  · have hfr : Int.fract x ≤ Int.fract y := by
      rw [← Int.self_sub_floor, ← Int.self_sub_floor, hf]
      linarith
    rcases lt_trichotomy (Int.fract y) (1 / 2) with hy | hy | hy
    · have hxlt : Int.fract x < 1 / 2 := lt_of_le_of_lt hfr hy
      rw [pyround_of_fract_lt hxlt, pyround_of_fract_lt hy, hf]
    · rcases lt_or_eq_of_le hfr with hx | hx
      · rw [pyround_of_fract_lt (hy ▸ hx), hf]
        exact floor_le_pyround y
      · rw [pyround_eq, pyround_eq]
        rw [if_pos (hx.trans hy), if_pos hy, hf]
    · calc pyround x ≤ ⌊x⌋ + 1 := pyround_le_floor_add_one x
        _ = ⌊y⌋ + 1 := by rw [hf]
        _ = pyround y := (pyround_of_fract_gt hy).symm

end PyroundLemmas

/-- Claim C9 as stated is false on the code: the variant positions `10.2`
and `10.4` arrive strictly increasing, but `round` maps both to `10`, so
the retained-positions sequence `[10, 10]` is not strictly increasing. -/
theorem C9_counterexample :
    List.Chain' (fun a b : ℚ => a < b) [51 / 5, 52 / 5]
      ∧ sequencing [⟨51 / 5, 2, [0, 1]⟩, ⟨52 / 5, 2, [0, 1]⟩] 1 2 (1 / 200) [true] [5]
          (fun _ => ⟨fun _ => 10, 1, fun _ => 5, fun _ => 0⟩)
        = Except.ok ([[(0, 1)], [(0, 1)]], [10, 10])
      ∧ ¬ List.Chain' (fun a b : ℤ => a < b) [10, 10] :=
  ⟨by decide, by rfl, by decide⟩

/-- Claim C9 (amended): for every variant stream and draw oracle, with a
coverage vector matching `ssize`, `sequencing` returns a matrix and a
retained-position list of equal locus dimension whose entries are the
variants' positions rounded to integers (Python half-to-even rounding);
when the variant positions arrive strictly increasing the retained
positions are non-decreasing (they need not be strictly increasing, since
distinct fractional positions can round to the same integer). -/
theorem C9_sequencing_positions
    (variants : List Variant) (ssize : ℕ) (ttr seq_error : ℚ)
    (dr : List Bool) (cov : List ℚ) (draws : ℕ → SiteDraws)
    (hcov : cov.length = ssize)
    (hmono : List.Chain' (fun a b : ℚ => a < b) (variants.map Variant.position)) :
    ∃ m ps, sequencing variants ssize ttr seq_error dr cov draws = Except.ok (m, ps)
      ∧ ps = variants.map (fun v => pyround v.position)
      ∧ ps.length = m.length
      ∧ List.Chain' (fun a b : ℤ => a ≤ b) ps := by
  unfold sequencing
  rw [if_neg (by simp [hcov])]
  refine ⟨_, _, rfl, rfl, ?_, ?_⟩
  · simp
  · rw [List.chain'_map]
    rw [List.chain'_map] at hmono
    exact hmono.imp fun a b h => pyround_mono (le_of_lt h)

/-- Witness for C9 (amended) at a concrete two-variant, one-sample run
with integer positions 2 and 3. -/
theorem C9_witness :
    ([(5 : ℚ)] : List ℚ).length = 1
      ∧ List.Chain' (fun a b : ℚ => a < b)
          (([⟨2, 2, [0, 1]⟩, ⟨3, 2, [0, 1]⟩] : List Variant).map Variant.position)
      ∧ (∃ m ps,
          sequencing [⟨2, 2, [0, 1]⟩, ⟨3, 2, [0, 1]⟩] 1 2 (1 / 200) [true] [5]
              (fun _ => ⟨fun _ => 9, 1, fun _ => 5, fun _ => 1⟩)
            = Except.ok (m, ps)
          ∧ ps = ([⟨2, 2, [0, 1]⟩, ⟨3, 2, [0, 1]⟩] : List Variant).map
              (fun v => pyround v.position)
          ∧ ps.length = m.length
          ∧ List.Chain' (fun a b : ℤ => a ≤ b) ps) :=
  ⟨rfl, by decide,
    C9_sequencing_positions [⟨2, 2, [0, 1]⟩, ⟨3, 2, [0, 1]⟩] 1 2 (1 / 200) [true] [5]
      (fun _ => ⟨fun _ => 9, 1, fun _ => 5, fun _ => 1⟩) rfl (by decide)⟩

section RohClaims

/-- Splitting an "at least `10^k`" count into the decade band
`[10^k, 10^(k+1))` and the "at least `10^(k+1)`" tail. -/
theorem count_band_split (l : List ℤ) (k : ℕ) :
    (l.countP fun g => decide ((10 : ℤ) ^ k ≤ g))
      = (l.countP fun g => decide ((10 : ℤ) ^ k ≤ g ∧ g < 10 ^ (k + 1)))
        + (l.countP fun g => decide ((10 : ℤ) ^ (k + 1) ≤ g)) := by
  have hAB : (10 : ℤ) ^ k ≤ 10 ^ (k + 1) :=
    pow_le_pow_right₀ (by norm_num) (Nat.le_succ k)
  induction l with
  | nil => rfl
  | cons a t ih =>
    simp only [List.countP_cons]
    by_cases h1 : (10 : ℤ) ^ (k + 1) ≤ a
    · have h2 : (10 : ℤ) ^ k ≤ a := le_trans hAB h1
      have h3 : ¬ a < (10 : ℤ) ^ (k + 1) := not_lt.mpr h1
      simp [h1, h2, h3, ih]
      omega
    · by_cases h2 : (10 : ℤ) ^ k ≤ a
      · have h3 : a < (10 : ℤ) ^ (k + 1) := not_le.mp h1
        simp only [h1, h2, h3]
        simp [ih]
        omega
      · simp only [h1, h2]
        simp [ih]

/-- The source's difference of "at least" counts equals the band count. -/
theorem count_band_eq (l : List ℤ) (k : ℕ) :
    ((l.countP fun g => decide ((10 : ℤ) ^ k ≤ g)) : ℤ)
      - ((l.countP fun g => decide ((10 : ℤ) ^ (k + 1) ≤ g)) : ℤ)
      = ((l.countP fun g => decide ((10 : ℤ) ^ k ≤ g ∧ g < 10 ^ (k + 1))) : ℤ) := by
  have h := count_band_split l k
  omega

theorem getD_map_range (nb : ℕ) (g : ℕ → ℤ) {k : ℕ} (hk : k < nb) :
    ((List.range nb).map g).getD k 0 = g k := by
  rw [List.getD_eq_getElem?_getD, List.getElem?_map, List.getElem?_range hk]
  rfl

/-- The accumulation loop of `distribution_roh` (over samples, updating
every bucket) computes, bucket by bucket, the sum over samples of the
per-sample contribution. -/
theorem foldl_hist (n nb : ℕ) (f g : ℕ → ℕ → ℤ) :
    (List.range n).foldl
        (fun hist ind => (List.range nb).map fun k => hist.getD k 0 + f ind k - g ind k)
        (List.replicate nb (0 : ℤ))
      = (List.range nb).map fun k =>
          ((List.range n).map fun ind => f ind k - g ind k).sum := by
  induction n with
  | zero =>
    simp only [List.range_zero, List.foldl_nil, List.map_nil, List.sum_nil]
    rw [show ((List.range nb).map fun _ => (0 : ℤ)) = List.replicate nb 0 by
      rw [List.map_const', List.length_range]]
  | succ n ih =>
    rw [List.range_succ, List.foldl_append, ih, List.foldl_cons, List.foldl_nil]
    refine List.map_congr_left fun k hk => ?_
    rw [List.mem_range] at hk
    rw [getD_map_range nb _ hk]
    rw [List.map_append, List.sum_append]
    simp
    omega

end RohClaims

/-- Claim C5 (amended): for strictly increasing positions and
`chr_end ≥ 1`, `distribution_roh` returns (never raises) a histogram with
exactly `round(log10 chr_end) + 1` buckets — nearest-integer rounding, not
`floor(log10 chr_end) + 1` — where every bucket `k`, the top bucket
included, counts the per-sample heterozygous-position gaps `g` with
`10^k ≤ g < 10^(k+1)`, summed over all samples. -/
theorem C5_distribution_roh_histogram
    (ga : GenotypeArray) (positions : List ℤ) (chr_end : ℕ)
    (hs : chainLt positions = true) (hc : 1 ≤ chr_end) :
    ∃ hist, distribution_roh ga positions chr_end = PyResult.ok hist
      ∧ hist.length = round_log10 chr_end + 1
      ∧ ∀ k, k < round_log10 chr_end + 1 →
          hist.getD k 0
            = ((List.range ga.n_samples).map fun ind =>
                (((roh (columnOf ga ind) positions).countP
                    fun g => decide ((10 : ℤ) ^ k ≤ g ∧ g < 10 ^ (k + 1))) : ℤ)).sum := by
  unfold distribution_roh
  rw [if_pos hs]
  simp only []
  have hfold := foldl_hist ga.n_samples (round_log10 chr_end + 1)
      (fun ind k =>
        (((roh (columnOf ga ind) positions).countP fun g => decide ((10 : ℤ) ^ k ≤ g)) : ℤ))
      (fun ind k =>
        (((roh (columnOf ga ind) positions).countP fun g => decide ((10 : ℤ) ^ (k + 1) ≤ g)) : ℤ))
  rw [hfold]
  have hband : ((List.range (round_log10 chr_end + 1)).map fun k =>
        ((List.range ga.n_samples).map fun ind =>
          (((roh (columnOf ga ind) positions).countP fun g => decide ((10 : ℤ) ^ k ≤ g)) : ℤ)
            - (((roh (columnOf ga ind) positions).countP
                fun g => decide ((10 : ℤ) ^ (k + 1) ≤ g)) : ℤ)).sum)
      = (List.range (round_log10 chr_end + 1)).map fun k =>
        ((List.range ga.n_samples).map fun ind =>
          (((roh (columnOf ga ind) positions).countP
              fun g => decide ((10 : ℤ) ^ k ≤ g ∧ g < 10 ^ (k + 1))) : ℤ)).sum := by
    refine List.map_congr_left fun k _ => ?_
    refine congrArg List.sum (List.map_congr_left fun ind _ => ?_)
    exact count_band_eq _ k
  rw [hband]
  have hany : (((List.range (round_log10 chr_end + 1)).map fun k =>
        ((List.range ga.n_samples).map fun ind =>
          (((roh (columnOf ga ind) positions).countP
              fun g => decide ((10 : ℤ) ^ k ≤ g ∧ g < 10 ^ (k + 1))) : ℤ)).sum).any
      fun x => decide (x < 0)) = false := by
    rw [List.any_eq_false]
    intro x hx
    obtain ⟨k, hk, rfl⟩ := List.mem_map.mp hx
    have hnn : (0 : ℤ) ≤ ((List.range ga.n_samples).map fun ind =>
        (((roh (columnOf ga ind) positions).countP
            fun g => decide ((10 : ℤ) ^ k ≤ g ∧ g < 10 ^ (k + 1))) : ℤ)).sum := by
      refine List.sum_nonneg ?_
      intro y hy
      obtain ⟨ind, hind, rfl⟩ := List.mem_map.mp hy
      exact Int.natCast_nonneg _
    simpa using not_lt.mpr hnn
  rw [if_neg (by simp only [hany]; exact Bool.false_ne_true)]
  refine ⟨_, rfl, ?_, ?_⟩
  · simp
  · intro k hk
    rw [getD_map_range _ _ hk]

/-- Claim C5 as stated is false on the code: with `chr_end = 400` the
histogram has `round(log10 400) + 1 = 4` buckets (`log10 400 ≈ 2.602`
rounds to 3), not `floor(log10 400) + 1 = 3` (the bounds
`10^2 ≤ 400 < 10^3` witness `floor(log10 400) = 2`).  The fixture is the
5-locus, 4-sample genotype array of the repository's own test suite. -/
theorem C5_counterexample :
    distribution_roh
        ⟨[[(0, 0), (0, 0), (0, 0), (0, 0)],
          [(0, 1), (0, 1), (0, 1), (1, 1)],
          [(-1, -1), (-1, -1), (-1, -1), (-1, -1)],
          [(1, 1), (1, 1), (0, 1), (1, 1)],
          [(0, 1), (0, 0), (0, 1), (0, -1)]], 4⟩
        [10, 123, 234, 299, 340] 400
      = PyResult.ok [0, 1, 2, 0]
      ∧ ([0, 1, 2, 0] : List ℤ).length = 4
      ∧ (10 : ℕ) ^ 2 ≤ 400 ∧ 400 < (10 : ℕ) ^ 3 :=
  ⟨by decide, by decide, by decide, by decide⟩

/-- Witness for C5 (amended) at the repository's 11-locus, 3-sample test
fixture with `chr_end = 30000`. -/
theorem C5_witness :
    chainLt [5, 10, 15, 20, 100, 200, 300, 1300, 3000, 10000, 20000] = true
      ∧ 1 ≤ 30000
      ∧ (∃ hist,
          distribution_roh
              ⟨[[(0, 1), (0, 1), (0, 0)],
                [(0, 1), (0, 1), (0, 1)],
                [(0, 0), (-1, -1), (1, 1)],
                [(0, 1), (1, 1), (0, 1)],
                [(0, 1), (0, 1), (0, 1)],
                [(0, 0), (0, 0), (-1, -1)],
                [(0, 1), (0, 1), (0, 1)],
                [(0, 1), (0, 1), (0, 1)],
                [(1, 1), (0, 0), (0, 1)],
                [(0, 1), (0, 1), (0, 1)],
                [(0, 1), (0, 1), (0, 0)]], 3⟩
              [5, 10, 15, 20, 100, 200, 300, 1300, 3000, 10000, 20000] 30000
            = PyResult.ok hist
          ∧ hist.length = round_log10 30000 + 1
          ∧ ∀ k, k < round_log10 30000 + 1 →
              hist.getD k 0
                = ((List.range 3).map fun ind =>
                    (((roh (columnOf
                          ⟨[[(0, 1), (0, 1), (0, 0)],
                            [(0, 1), (0, 1), (0, 1)],
                            [(0, 0), (-1, -1), (1, 1)],
                            [(0, 1), (1, 1), (0, 1)],
                            [(0, 1), (0, 1), (0, 1)],
                            [(0, 0), (0, 0), (-1, -1)],
                            [(0, 1), (0, 1), (0, 1)],
                            [(0, 1), (0, 1), (0, 1)],
                            [(1, 1), (0, 0), (0, 1)],
                            [(0, 1), (0, 1), (0, 1)],
                            [(0, 1), (0, 1), (0, 0)]], 3⟩ ind)
                        [5, 10, 15, 20, 100, 200, 300, 1300, 3000, 10000, 20000]).countP
                        fun g => decide ((10 : ℤ) ^ k ≤ g ∧ g < 10 ^ (k + 1))) : ℤ)).sum) :=
  ⟨by decide, by decide,
    C5_distribution_roh_histogram
      ⟨[[(0, 1), (0, 1), (0, 0)],
        [(0, 1), (0, 1), (0, 1)],
        [(0, 0), (-1, -1), (1, 1)],
        [(0, 1), (1, 1), (0, 1)],
        [(0, 1), (0, 1), (0, 1)],
        [(0, 0), (0, 0), (-1, -1)],
        [(0, 1), (0, 1), (0, 1)],
        [(0, 1), (0, 1), (0, 1)],
        [(1, 1), (0, 0), (0, 1)],
        [(0, 1), (0, 1), (0, 1)],
        [(0, 1), (0, 1), (0, 0)]], 3⟩
      [5, 10, 15, 20, 100, 200, 300, 1300, 3000, 10000, 20000] 30000
      (by decide) (by decide)⟩

/-- Claim C8 as stated is false on the code: on the non-contiguous
chromosome column `[1, 3]` `get_genome_map` performs no validation and
returns a genome map normally — reporting `nchr = 3` although the table
has only two rows — instead of failing with `MalformedGenomeTable`. -/
theorem C8_counterexample :
    get_genome_map [1, 3] [1 / 2, 1 / 3] [100, 200] = (3, [1 / 2, 1 / 3], [100, 300]) := by
  decide

/-- Claim C8 (amended): the genome-map builders perform no chromosome
index validation.  On any two-row table with indices `[1, c]`, `c ≥ 3`
(a gap), `get_genome_map` returns normally with the silently wrong
chromosome count `nchr = c`, while `get_recombination_map` does fail —
but with a Python `IndexError` escaping the breakpoint-insertion loop
(whose boundary detection `np.diff == 1` misses the jump), not with a
`MalformedGenomeTable` precondition error. -/
theorem C8_no_validation (c p1 p2 : ℤ) (r1 r2 : ℚ) (l1 l2 : ℤ) (hc : 3 ≤ c) :
    get_genome_map [1, c] [r1, r2] [l1, l2] = (c, [r1, r2], [0 + l1, 0 + l1 + l2])
      ∧ get_recombination_map [1, c] [p1, p2] [r1, r2]
          = Except.error "IndexError: list index out of range" := by
  have hmax : listMax [1, c] = c := by
    simp only [listMax, List.headD, List.foldl, max_self]
    exact max_eq_right (by omega)
  constructor
  · unfold get_genome_map cumsum cumsumFrom
    rw [hmax]
    rfl
  · have hcei : chr_ends_index [1, c] = [1] := by
      have hd : decide ((([1, c] : List ℤ).getD (0 + 1) 0) - (([1, c] : List ℤ).getD 0 0) = 1)
          = false := by
        rw [decide_eq_false_iff_not]
        simp only [List.getD]
        simp
        omega
      unfold chr_ends_index diffOneIdx
      simp only [List.length_cons, List.length_nil]
      rw [show List.range (0 + 1 + 1 - 1) = [0] from rfl]
      rw [List.filter_cons, hd, List.filter_nil]
      rfl
    have hm2 : c.toNat - 1 = (c.toNat - 3) + 2 := by omega
    unfold get_recombination_map insert_loop
    simp only []
    rw [hmax, hcei, hm2]
    rw [List.range_succ_eq_map, List.range_succ_eq_map]
    simp only [List.map_cons]
    rfl

/-- Witness for C8 (amended) at `c = 3` with concrete rows. -/
theorem C8_witness :
    (3 : ℤ) ≤ 3
      ∧ (get_genome_map [1, 3] [1 / 2, 1 / 3] [100, 200]
            = (3, [1 / 2, 1 / 3], [0 + 100, 0 + 100 + 200])
          ∧ get_recombination_map [1, 3] [100, 200] [1 / 2, 1 / 3]
              = Except.error "IndexError: list index out of range") :=
  ⟨by decide, C8_no_validation 3 100 200 (1 / 2) (1 / 3) 100 200 (by decide)⟩

section MakeRecMapLemmas

theorem flatMap_pair_length {α : Type} (f g : ℕ → α) (m : ℕ) :
    ((List.range m).flatMap fun i => [f i, g i]).length = 2 * m := by
  induction m with
  | zero => rfl
  | succ n ih =>
    rw [List.range_succ, List.flatMap_append, List.length_append, ih]
    simp only [List.flatMap_cons, List.flatMap_nil, List.append_nil, List.length_cons,
      List.length_nil]
    omega

theorem flatMap_pair_getD_odd {α : Type} (f g : ℕ → α) (d : α) (m j : ℕ) (hj : j < m) :
    ((List.range m).flatMap fun i => [f i, g i]).getD (2 * j + 1) d = g j := by
  induction m with
  | zero => omega
  | succ n ih =>
    rw [List.range_succ, List.flatMap_append]
    rcases Nat.lt_or_ge j n with h | h
    · rw [List.getD_append]
      · exact ih h
      · rw [flatMap_pair_length]; omega
    · have hj' : j = n := by omega
      subst hj'
      rw [List.getD_append_right]
      · rw [flatMap_pair_length, show 2 * j + 1 - 2 * j = 1 from by omega]
        rfl
      · rw [flatMap_pair_length]; omega

theorem make_pos_chain (e : ℕ → ℤ) :
    ∀ n, 1 ≤ e 0 → (∀ i, i < n → e i + 2 ≤ e (i + 1)) →
      List.Chain' (fun a b : ℤ => a < b)
        (0 :: (((List.range n).flatMap fun i => [e i, e i + 1]) ++ [e n]))
  | 0, h0, _ => by
    simp only [List.range_zero, List.flatMap_nil, List.nil_append, List.chain'_cons,
      List.chain'_singleton, and_true]
    omega
  | n + 1, h0, hstep => by
    have ih := make_pos_chain e n h0 (fun i hi => hstep i (by omega))
    rw [List.range_succ, List.flatMap_append]
    simp only [List.flatMap_cons, List.flatMap_nil, List.append_nil]
    have hre : (0 :: ((((List.range n).flatMap fun i => [e i, e i + 1]) ++ [e n, e n + 1])
            ++ [e (n + 1)]))
        = (0 :: (((List.range n).flatMap fun i => [e i, e i + 1]) ++ [e n]))
            ++ [e n + 1, e (n + 1)] := by
      simp
    rw [hre]
    refine List.chain'_append.mpr ⟨ih, ?_, ?_⟩
    · simp only [List.chain'_cons, List.chain'_singleton, and_true]
      have := hstep n (by omega)
      omega
    · intro x hx y hy
      have hlast : (0 :: (((List.range n).flatMap fun i => [e i, e i + 1]) ++ [e n])).getLast?
          = some (e n) := by
        rw [show (0 : ℤ) :: (((List.range n).flatMap fun i => [e i, e i + 1]) ++ [e n])
            = ((0 : ℤ) :: ((List.range n).flatMap fun i => [e i, e i + 1])) ++ [e n] from rfl]
        exact List.getLast?_concat _
      rw [hlast] at hx
      simp only [Option.mem_def, Option.some.injEq] at hx
      simp only [List.head?_cons, Option.mem_def, Option.some.injEq] at hy
      subst hx
      subst hy
      omega

theorem flatMap_log2_count (r : ℕ → ℚ) (m : ℕ) :
    ((List.range m).flatMap fun i => [RecRate.of (r i), RecRate.log2]).count RecRate.log2
      = m := by
  induction m with
  | zero => rfl
  | succ n ih =>
    rw [List.range_succ, List.flatMap_append, List.count_append, ih]
    simp only [List.flatMap_cons, List.flatMap_nil, List.append_nil]
    rw [List.count_cons, List.count_cons, List.count_nil]
    simp

end MakeRecMapLemmas

section BlockLemmas

theorem getD_length_sub_one {α : Type} :
    ∀ (l : List α) (d d' : α), l ≠ [] → l.getD (l.length - 1) d = l.getLastD d'
  | [], _, _, h => absurd rfl h
  | [x], _, _, _ => rfl
  | x :: y :: t, d, d', _ => by
    rw [List.getLastD_cons]
    rw [show (x :: y :: t).length - 1 = (y :: t).length - 1 + 1 from by
      simp [List.length_cons]]
    rw [List.getD_cons_succ]
    exact getD_length_sub_one (y :: t) d x (by simp)

theorem getLastD_map {α β : Type} (f : α → β) :
    ∀ (l : List α) (d : β) (d' : α), l ≠ [] → (l.map f).getLastD d = f (l.getLastD d')
  | [], _, _, h => absurd rfl h
  | [x], _, _, _ => rfl
  | x :: y :: t, d, d', _ => by
    rw [show (x :: y :: t).map f = f x :: (y :: t).map f from rfl]
    rw [List.getLastD_cons, List.getLastD_cons]
    exact getLastD_map f (y :: t) (f x) x (by simp)

theorem get?_map_last {α β : Type} (f : α → β) :
    ∀ (l : List α) (d : α), l ≠ [] → (l.map f).get? (l.length - 1) = some (f (l.getLastD d))
  | [], _, h => absurd rfl h
  | [x], _, _ => rfl
  | x :: y :: t, d, _ => by
    rw [show (x :: y :: t).map f = f x :: (y :: t).map f from rfl]
    rw [show (x :: y :: t).length - 1 = (y :: t).length - 1 + 1 from by
      simp [List.length_cons]]
    rw [List.get?_cons_succ, List.getLastD_cons]
    exact get?_map_last f (y :: t) x (by simp)

theorem dropLast_append_getLastD {α : Type} :
    ∀ (l : List α) (d : α), l ≠ [] → l.dropLast ++ [l.getLastD d] = l
  | [], _, h => absurd rfl h
  | [x], _, _ => rfl
  | x :: y :: t, d, _ => by
    rw [List.getLastD_cons, show (x :: y :: t).dropLast = x :: (y :: t).dropLast from rfl]
    rw [List.cons_append]
    rw [dropLast_append_getLastD (y :: t) x (by simp)]

theorem tableChromFrom_length :
    ∀ (bs : List (List ℤ)) (v : ℤ),
      (tableChromFrom v bs).length = (bs.map List.length).sum
  | [], _ => rfl
  | b :: rest, v => by
    simp only [tableChromFrom, List.length_append, List.length_map, List.map_cons,
      List.sum_cons]
    rw [tableChromFrom_length rest (v + 1)]

theorem foldl_max_const :
    ∀ (b : List ℤ) (v a : ℤ), b ≠ [] → ((b.map fun _ => v).foldl max a) = max a v
  | [], _, _, h => absurd rfl h
  | [x], v, a, _ => rfl
  | x :: y :: t, v, a, _ => by
    rw [show ((x :: y :: t).map fun _ => v) = v :: ((y :: t).map fun _ => v) from rfl]
    rw [List.foldl_cons]
    rw [foldl_max_const (y :: t) v (max a v) (by simp)]
    rw [max_assoc, max_self]

theorem foldl_max_table :
    ∀ (bs : List (List ℤ)) (v a : ℤ), bs ≠ [] → (∀ b ∈ bs, b ≠ []) →
      (tableChromFrom v bs).foldl max a = max a (v + bs.length - 1)
  | [], _, _, h, _ => absurd rfl h
  | [b], v, a, _, hne => by
    rw [show tableChromFrom v [b] = (b.map fun _ => v) ++ [] from rfl, List.append_nil]
    rw [foldl_max_const b v a (hne b (by simp))]
    norm_num
  | b :: c :: rest, v, a, _, hne => by
    rw [show tableChromFrom v (b :: c :: rest)
        = (b.map fun _ => v) ++ tableChromFrom (v + 1) (c :: rest) from rfl]
    rw [List.foldl_append, foldl_max_const b v a (hne b (by simp))]
    rw [foldl_max_table (c :: rest) (v + 1) (max a v) (by simp)
        (fun b' hb' => hne b' (by simp [hb']))]
    rw [max_assoc]
    congr 1
    have hlen : ((b :: c :: rest).length : ℤ) = ((c :: rest).length : ℤ) + 1 := by
      simp
    rw [hlen]
    have h1 : (v + 1) + ((c :: rest).length : ℤ) - 1 = v + (c :: rest).length := by ring
    rw [h1]
    rw [max_eq_right (by omega)]
    ring

theorem headD_tableChromFrom (b : List ℤ) (rest : List (List ℤ)) (v : ℤ) (hb : b ≠ []) :
    (tableChromFrom v (b :: rest)).headD 0 = v := by
  match b, hb with
  | x :: t, _ => rfl

theorem listMax_tableChromFrom (bs : List (List ℤ)) (hbs : bs ≠ [])
    (hne : ∀ b ∈ bs, b ≠ []) :
    listMax (tableChromFrom 1 bs) = (bs.length : ℤ) := by
  match bs, hbs with
  | b :: rest, _ =>
    unfold listMax
    rw [headD_tableChromFrom b rest 1 (hne b (by simp))]
    rw [foldl_max_table (b :: rest) 1 1 (by simp) hne]
    rw [max_eq_right (by
      have h1 : (1 : ℤ) ≤ ((b :: rest).length : ℤ) := by
        have := List.length_pos.mpr (show (b :: rest) ≠ [] by simp)
        omega
      omega)]
    ring

end BlockLemmas

section DiffIdxLemmas

theorem filter_map_comm {α β : Type} (f : α → β) (p : β → Bool) :
    ∀ l : List α, (l.map f).filter p = (l.filter fun a => p (f a)).map f
  | [] => rfl
  | a :: t => by
    rw [List.map_cons, List.filter_cons, List.filter_cons]
    by_cases h : p (f a) <;> simp [h, filter_map_comm f p t]

theorem dropLast_map {α β : Type} (f : α → β) :
    ∀ l : List α, (l.map f).dropLast = l.dropLast.map f
  | [] => rfl
  | [x] => rfl
  | x :: y :: t => by
    rw [show (x :: y :: t).map f = f x :: (y :: t).map f from rfl]
    rw [show (f x :: (y :: t).map f).dropLast = f x :: ((y :: t).map f).dropLast from by
      match t with | [] => rfl | z :: t' => rfl]
    rw [dropLast_map f (y :: t)]
    rfl

theorem diffOneIdx_cons (a b : ℤ) (t : List ℤ) :
    diffOneIdx (a :: b :: t)
      = (if b - a = 1 then [0] else []) ++ (diffOneIdx (b :: t)).map (fun i => i + 1) := by
  unfold diffOneIdx
  rw [show (a :: b :: t).length - 1 = t.length + 1 from by simp]
  rw [show (b :: t).length - 1 = t.length from by simp]
  rw [List.range_succ_eq_map]
  rw [List.filter_cons]
  rw [filter_map_comm Nat.succ _]
  have hpred : ((List.range t.length).filter fun i =>
        decide ((a :: b :: t).getD (Nat.succ i + 1) 0 - (a :: b :: t).getD (Nat.succ i) 0 = 1))
      = (List.range t.length).filter fun i =>
        decide ((b :: t).getD (i + 1) 0 - (b :: t).getD i 0 = 1) := by
    apply List.filter_congr
    intro i _
    rfl
  rw [hpred]
  have hsucc : ((List.range t.length).filter fun i =>
          decide ((b :: t).getD (i + 1) 0 - (b :: t).getD i 0 = 1)).map Nat.succ
      = ((List.range t.length).filter fun i =>
          decide ((b :: t).getD (i + 1) 0 - (b :: t).getD i 0 = 1)).map (fun i => i + 1) :=
    List.map_congr_left fun i _ => rfl
  rw [hsucc]
  by_cases h : b - a = 1
  · rw [if_pos h]
    rw [show (decide ((a :: b :: t).getD (0 + 1) 0 - (a :: b :: t).getD 0 0 = 1))
        = decide (b - a = 1) from rfl]
    rw [decide_eq_true h]
    rfl
  · rw [if_neg h]
    rw [show (decide ((a :: b :: t).getD (0 + 1) 0 - (a :: b :: t).getD 0 0 = 1))
        = decide (b - a = 1) from rfl]
    rw [decide_eq_false h]
    rfl

theorem diffOneIdx_const (v : ℤ) : ∀ b : List ℤ, diffOneIdx (b.map fun _ => v) = []
  | [] => rfl
  | [x] => rfl
  | x :: y :: t => by
    rw [show ((x :: y :: t).map fun _ => v) = v :: ((y :: t).map fun _ => v) from rfl]
    rw [show ((y :: t).map fun _ => v) = v :: (t.map fun _ => v) from rfl]
    rw [diffOneIdx_cons]
    rw [show (v :: (t.map fun _ => v) : List ℤ) = ((y :: t).map fun _ => v) from rfl]
    rw [diffOneIdx_const v (y :: t)]
    simp

theorem diffOneIdx_const_append (v : ℤ) :
    ∀ (b t : List ℤ), b ≠ [] → t ≠ [] → t.headD 0 = v + 1 →
      diffOneIdx ((b.map fun _ => v) ++ t)
        = (b.length - 1) :: (diffOneIdx t).map (fun i => i + b.length)
  | [], _, hb, _, _ => absurd rfl hb
  | [x], t, _, ht, hh => by
    match t, ht with
    | w :: t', _ =>
      have hw : w = v + 1 := by simpa using hh
      rw [show (([x].map fun _ => v) ++ (w :: t') : List ℤ) = v :: w :: t' from rfl]
      rw [diffOneIdx_cons, hw]
      rw [if_pos (by ring)]
      simp
  | x :: y :: b', t, _, ht, hh => by
    rw [show (((x :: y :: b').map fun _ => v) ++ t : List ℤ)
        = v :: (((y :: b').map fun _ => v) ++ t) from rfl]
    rw [show (((y :: b').map fun _ => v) ++ t : List ℤ)
        = v :: ((b'.map fun _ => v) ++ t) from rfl]
    rw [diffOneIdx_cons]
    rw [show (v :: ((b'.map fun _ => v) ++ t) : List ℤ)
        = ((y :: b').map fun _ => v) ++ t from rfl]
    rw [diffOneIdx_const_append v (y :: b') t (by simp) ht hh]
    rw [if_neg (by omega)]
    rw [List.nil_append, List.map_cons, List.map_map]
    congr 1

theorem blockEnds_ne_nil (b : List ℤ) (rest : List (List ℤ)) : blockEnds (b :: rest) ≠ [] := by
  simp [blockEnds]

theorem diffOneIdx_tableChromFrom :
    ∀ (bs : List (List ℤ)) (v : ℤ), (∀ b ∈ bs, b ≠ []) →
      diffOneIdx (tableChromFrom v bs) = (blockEnds bs).dropLast
  | [], _, _ => rfl
  | [b], v, hne => by
    rw [show tableChromFrom v [b] = (b.map fun _ => v) ++ [] from rfl, List.append_nil]
    rw [diffOneIdx_const v b]
    rfl
  | b :: c :: rest, v, hne => by
    rw [show tableChromFrom v (b :: c :: rest)
        = (b.map fun _ => v) ++ tableChromFrom (v + 1) (c :: rest) from rfl]
    have hnext_ne : tableChromFrom (v + 1) (c :: rest) ≠ [] := by
      match c, hne c (by simp) with
      | z :: c', _ => simp [tableChromFrom]
    have hhead : (tableChromFrom (v + 1) (c :: rest)).headD 0 = v + 1 :=
      headD_tableChromFrom c rest (v + 1) (hne c (by simp))
    rw [diffOneIdx_const_append v b _ (hne b (by simp)) hnext_ne hhead]
    rw [diffOneIdx_tableChromFrom (c :: rest) (v + 1)
        (fun b' hb' => hne b' (by simp [hb']))]
    rw [show blockEnds (b :: c :: rest)
        = (b.length - 1) :: (blockEnds (c :: rest)).map (fun i => i + b.length) from rfl]
    rw [show ((b.length - 1) :: (blockEnds (c :: rest)).map fun i => i + b.length).dropLast
        = (b.length - 1) :: ((blockEnds (c :: rest)).map fun i => i + b.length).dropLast from by
      match hb : blockEnds (c :: rest) with
      | [] => exact absurd hb (blockEnds_ne_nil c rest)
      | z :: zs => rfl]
    rw [dropLast_map]

theorem blockEnds_getLastD :
    ∀ bs : List (List ℤ), bs ≠ [] → (∀ b ∈ bs, b ≠ []) →
      (blockEnds bs).getLastD 0 = (bs.map List.length).sum - 1
  | [], h, _ => absurd rfl h
  | [b], _, hne => by
    simp [blockEnds]
  | b :: c :: rest, _, hne => by
    rw [show blockEnds (b :: c :: rest)
        = (b.length - 1) :: (blockEnds (c :: rest)).map (fun i => i + b.length) from rfl]
    rw [List.getLastD_cons]
    rw [getLastD_map _ (blockEnds (c :: rest)) _ 0 (blockEnds_ne_nil c rest)]
    rw [blockEnds_getLastD (c :: rest) (by simp) (fun b' hb' => hne b' (by simp [hb']))]
    have h1 : 1 ≤ ((c :: rest).map List.length).sum := by
      have hc := List.length_pos.mpr (hne c (by simp))
      simp only [List.map_cons, List.sum_cons]
      omega
    simp only [List.map_cons, List.sum_cons] at h1 ⊢
    omega

theorem chr_ends_index_blocks (bs : List (List ℤ)) (hbs : bs ≠ [])
    (hne : ∀ b ∈ bs, b ≠ []) :
    chr_ends_index (tableChromFrom 1 bs) = blockEnds bs := by
  unfold chr_ends_index
  rw [diffOneIdx_tableChromFrom bs 1 hne]
  rw [tableChromFrom_length bs 1]
  rw [show (bs.map List.length).sum - 1 = (blockEnds bs).getLastD 0 from
    (blockEnds_getLastD bs hbs hne).symm]
  exact dropLast_append_getLastD (blockEnds bs) 0 (by
    match bs, hbs with
    | b :: rest, _ => exact blockEnds_ne_nil b rest)

end DiffIdxLemmas

section SumLemmas

theorem lensSum_zero {α : Type} (bs : List (List α)) : lensSum bs 0 = 0 := rfl

theorem lastsSum_zero (bs : List (List ℤ)) : lastsSum bs 0 = 0 := rfl

theorem lensSum_nil {α : Type} (c : ℕ) : lensSum ([] : List (List α)) c = 0 := by
  simp [lensSum]

theorem lastsSum_nil (c : ℕ) : lastsSum [] c = 0 := by
  simp [lastsSum]

theorem lensSum_cons {α : Type} (b : List α) (rest : List (List α)) (c : ℕ) :
    lensSum (b :: rest) (c + 1) = b.length + lensSum rest c := by
  simp [lensSum, List.take_succ_cons]

theorem lastsSum_cons (b : List ℤ) (rest : List (List ℤ)) (c : ℕ) :
    lastsSum (b :: rest) (c + 1) = b.getLastD 0 + lastsSum rest c := by
  simp [lastsSum, List.take_succ_cons]

theorem lensSum_succ_of_lt {α : Type} :
    ∀ (bs : List (List α)) (c : ℕ), c < bs.length →
      lensSum bs (c + 1) = lensSum bs c + (bs.getD c []).length
  | [], _, h => absurd h (by simp)
  | b :: rest, 0, _ => by
    rw [lensSum_cons, lensSum_zero, lensSum_zero, List.getD_cons_zero]
    omega
  | b :: rest, c + 1, h => by
    rw [lensSum_cons, lensSum_succ_of_lt rest c (by simpa using h), lensSum_cons]
    rw [List.getD_cons_succ]
    omega

theorem lastsSum_succ_of_lt :
    ∀ (bs : List (List ℤ)) (c : ℕ), c < bs.length →
      lastsSum bs (c + 1) = lastsSum bs c + (bs.getD c []).getLastD 0
  | [], _, h => absurd h (by simp)
  | b :: rest, 0, _ => by
    rw [lastsSum_cons, lastsSum_zero, lastsSum_zero]
    rw [List.getD_cons_zero]
    ring
  | b :: rest, c + 1, h => by
    rw [lastsSum_cons, lastsSum_succ_of_lt rest c (by simpa using h), lastsSum_cons]
    rw [List.getD_cons_succ]
    ring

theorem lensSum_le_succ {α : Type} :
    ∀ (bs : List (List α)) (c : ℕ), lensSum bs c ≤ lensSum bs (c + 1)
  | [], c => by rw [lensSum_nil, lensSum_nil]
  | b :: rest, 0 => by rw [lensSum_zero]; omega
  | b :: rest, c + 1 => by
    rw [lensSum_cons, lensSum_cons]
    have := lensSum_le_succ rest c
    omega

theorem lensSum_mono {α : Type} (bs : List (List α)) {c c' : ℕ} (h : c ≤ c') :
    lensSum bs c ≤ lensSum bs c' := by
  induction c' with
  | zero =>
    have : c = 0 := by omega
    subst this
    exact le_refl _
  | succ n ih =>
    rcases Nat.lt_or_ge c (n + 1) with h' | h'
    · exact le_trans (ih (by omega)) (lensSum_le_succ bs n)
    · have : c = n + 1 := by omega
      subst this
      exact le_refl _

theorem getD_block_mem {α : Type} :
    ∀ (bs : List (List α)) (c : ℕ), c < bs.length → bs.getD c [] ∈ bs
  | [], _, h => absurd h (by simp)
  | b :: rest, 0, _ => by simp
  | b :: rest, c + 1, h => by
    rw [List.getD_cons_succ]
    exact List.mem_cons.mpr (Or.inr (getD_block_mem rest c (by simpa using h)))

theorem lensSum_pos {α : Type} :
    ∀ (bs : List (List α)) (c : ℕ), c < bs.length → (∀ b ∈ bs, b ≠ []) →
      1 ≤ lensSum bs (c + 1) := by
  intro bs c h hne
  have h1 := lensSum_succ_of_lt bs c h
  have h2 : (bs.getD c []).length ≥ 1 :=
    List.length_pos.mpr (hne _ (getD_block_mem bs c h))
  omega

theorem blockEnds_get? :
    ∀ (bs : List (List ℤ)) (c : ℕ), c < bs.length → (∀ b ∈ bs, b ≠ []) →
      (blockEnds bs).get? c = some (lensSum bs (c + 1) - 1)
  | [], _, h, _ => absurd h (by simp)
  | b :: rest, 0, _, hne => by
    rw [show blockEnds (b :: rest)
        = (b.length - 1) :: (blockEnds rest).map (fun i => i + b.length) from rfl]
    rw [List.get?_cons_zero, lensSum_cons, lensSum_zero]
    congr 2
  | b :: rest, c + 1, h, hne => by
    rw [show blockEnds (b :: rest)
        = (b.length - 1) :: (blockEnds rest).map (fun i => i + b.length) from rfl]
    rw [List.get?_cons_succ, List.get?_map]
    rw [blockEnds_get? rest c (by simpa using h) (fun b' hb' => hne b' (by simp [hb']))]
    rw [lensSum_cons]
    have hpos := lensSum_pos rest c (by simpa using h) (fun b' hb' => hne b' (by simp [hb']))
    simp only [Option.map_some']
    congr 1
    omega

theorem mem_blockEnds_iff :
    ∀ (bs : List (List ℤ)) (i : ℕ), (∀ b ∈ bs, b ≠ []) →
      (i ∈ blockEnds bs ↔ ∃ c, c < bs.length ∧ i + 1 = lensSum bs (c + 1))
  | [], i, _ => by simp [blockEnds]
  | b :: rest, i, hne => by
    rw [show blockEnds (b :: rest)
        = (b.length - 1) :: (blockEnds rest).map (fun i => i + b.length) from rfl]
    have hb1 : 1 ≤ b.length := List.length_pos.mpr (hne b (by simp))
    constructor
    · intro hmem
      rcases List.mem_cons.mp hmem with h | h
      · exact ⟨0, by simp, by rw [lensSum_cons, lensSum_zero]; omega⟩
      · obtain ⟨i', hi', rfl⟩ := List.mem_map.mp h
        obtain ⟨c, hc, hceq⟩ := (mem_blockEnds_iff rest i'
          (fun b' hb' => hne b' (by simp [hb']))).mp hi'
        exact ⟨c + 1, by simp; omega, by rw [lensSum_cons]; omega⟩
    · rintro ⟨c, hc, hceq⟩
      match c with
      | 0 =>
        rw [lensSum_cons, lensSum_zero] at hceq
        exact List.mem_cons.mpr (Or.inl (by omega))
      | c' + 1 =>
        rw [lensSum_cons] at hceq
        have hc' : c' < rest.length := by simpa using hc
        have hpos := lensSum_pos rest c' hc' (fun b' hb' => hne b' (by simp [hb']))
        refine List.mem_cons.mpr (Or.inr (List.mem_map.mpr
          ⟨lensSum rest (c' + 1) - 1, ?_, by omega⟩))
        exact (mem_blockEnds_iff rest _ (fun b' hb' => hne b' (by simp [hb']))).mpr
          ⟨c', hc', by omega⟩

theorem cumsumFrom_getD :
    ∀ (l : List ℤ) (acc : ℤ) (k : ℕ), k < l.length →
      (cumsumFrom acc l).getD k 0 = acc + (l.take (k + 1)).sum
  | [], _, k, h => absurd h (by simp)
  | x :: t, acc, 0, _ => by
    simp [cumsumFrom, List.take_succ_cons]
  | x :: t, acc, k + 1, h => by
    rw [show cumsumFrom acc (x :: t) = (acc + x) :: cumsumFrom (acc + x) t from rfl]
    rw [List.getD_cons_succ]
    rw [cumsumFrom_getD t (acc + x) k (by simpa using h)]
    rw [List.take_succ_cons, List.sum_cons]
    ring

theorem resc_getD (bs : List (List ℤ)) (k : ℕ) (hk : k ≤ bs.length) :
    ((0 : ℤ) :: cumsum (bs.map fun b => b.getLastD 0)).getD k 0 = lastsSum bs k := by
  match k with
  | 0 => rfl
  | k + 1 =>
    rw [List.getD_cons_succ]
    unfold cumsum
    rw [cumsumFrom_getD _ 0 k (by rw [List.length_map]; omega)]
    rw [← List.map_take]
    rw [lastsSum, zero_add]

end SumLemmas

section RescaleLemmas

theorem join_getD_blockEnds :
    ∀ bs : List (List ℤ), (∀ b ∈ bs, b ≠ []) →
      (blockEnds bs).map (fun i => (bs.join).getD i 0) = bs.map (fun b => b.getLastD 0)
  | [], _ => rfl
  | b :: rest, hne => by
    rw [show blockEnds (b :: rest)
        = (b.length - 1) :: (blockEnds rest).map (fun i => i + b.length) from rfl]
    rw [show (b :: rest).join = b ++ rest.join from rfl]
    rw [List.map_cons, List.map_map]
    congr 1
    · rw [List.getD_append]
      · exact getD_length_sub_one b 0 0 (hne b (by simp))
      · have := List.length_pos.mpr (hne b (by simp))
        omega
    · rw [show ((fun i => (b ++ rest.join).getD i 0) ∘ fun i => i + b.length)
          = fun i => (rest.join).getD i 0 from ?_]
      · exact join_getD_blockEnds rest (fun b' hb' => hne b' (by simp [hb']))
      · funext i
        simp only [Function.comp_apply]
        rw [List.getD_append_right]
        · congr 1
          omega
        · omega

theorem rescale_foldl_go (cei : List ℕ) (resc : List ℤ) :
    ∀ (l : List (ℕ × ℤ)) (acc : List ℤ) (k : ℕ),
      (l.foldl (fun (st : List ℤ × ℕ) ip =>
          (st.1 ++ [ip.2 + resc.getD st.2 0], if ip.1 ∈ cei then st.2 + 1 else st.2))
        (acc, k)).1 = acc ++ rescGo cei resc l k
  | [], acc, k => by simp [rescGo]
  | ip :: rest, acc, k => by
    rw [List.foldl_cons]
    rw [rescale_foldl_go cei resc rest _ _]
    rw [show rescGo cei resc (ip :: rest) k
        = (ip.2 + resc.getD k 0) :: rescGo cei resc rest (if ip.1 ∈ cei then k + 1 else k)
        from rfl]
    rw [List.append_assoc]
    rfl

theorem rescale_loop_eq_go (cei : List ℕ) (resc : List ℤ) (positions : List ℤ) :
    rescale_loop cei resc positions = rescGo cei resc positions.enum 0 := by
  unfold rescale_loop
  rw [rescale_foldl_go cei resc positions.enum [] 0]
  rfl

theorem rescGo_block (cei : List ℕ) (resc : List ℤ) :
    ∀ (b : List ℤ) (s k : ℕ) (rest : List (ℕ × ℤ)), b ≠ [] →
      ((s + b.length - 1) ∈ cei) →
      (∀ j, j < b.length - 1 → (s + j) ∉ cei) →
      rescGo cei resc (List.enumFrom s b ++ rest) k
        = (b.map fun p => p + resc.getD k 0) ++ rescGo cei resc rest (k + 1)
  | [], _, _, _, hb, _, _ => absurd rfl hb
  | [x], s, k, rest, _, hlast, _ => by
    rw [show (List.enumFrom s [x] ++ rest : List (ℕ × ℤ)) = (s, x) :: rest from rfl]
    rw [show rescGo cei resc ((s, x) :: rest) k
        = (x + resc.getD k 0) :: rescGo cei resc rest (if s ∈ cei then k + 1 else k) from rfl]
    have hs : s ∈ cei := by simpa using hlast
    rw [if_pos hs]
    rfl
  | x :: y :: b', s, k, rest, _, hlast, hmid => by
    rw [show (List.enumFrom s (x :: y :: b') ++ rest : List (ℕ × ℤ))
        = (s, x) :: (List.enumFrom (s + 1) (y :: b') ++ rest) from by
      rw [show List.enumFrom s (x :: y :: b')
          = (s, x) :: List.enumFrom (s + 1) (y :: b') from rfl]
      rfl]
    rw [show rescGo cei resc ((s, x) :: (List.enumFrom (s + 1) (y :: b') ++ rest)) k
        = (x + resc.getD k 0) :: rescGo cei resc (List.enumFrom (s + 1) (y :: b') ++ rest)
            (if s ∈ cei then k + 1 else k) from rfl]
    have hs : s ∉ cei := by
      have h0 := hmid 0 (by simp [List.length_cons])
      simpa using h0
    rw [if_neg hs]
    have hlast' : (s + 1) + (y :: b').length - 1 ∈ cei := by
      have heq : (s + 1) + (y :: b').length - 1 = s + (x :: y :: b').length - 1 := by
        simp only [List.length_cons]
        omega
      rw [heq]
      exact hlast
    have hmid' : ∀ j, j < (y :: b').length - 1 → ((s + 1) + j) ∉ cei := by
      intro j hj
      have heq : (s + 1) + j = s + (j + 1) := by omega
      rw [heq]
      refine hmid (j + 1) ?_
      simp only [List.length_cons] at hj ⊢
      omega
    rw [rescGo_block cei resc (y :: b') (s + 1) k rest (by simp) hlast' hmid']
    rfl

theorem rescGo_blocks (bs : List (List ℤ)) (hne : ∀ b ∈ bs, b ≠ []) :
    ∀ (todo : List (List ℤ)) (c : ℕ),
      c + todo.length = bs.length → todo = bs.drop c →
      rescGo (blockEnds bs) ((0 : ℤ) :: cumsum (bs.map fun b => b.getLastD 0))
          (List.enumFrom (lensSum bs c) todo.join) c
        = rescaled todo (lastsSum bs c)
  | [], c, _, _ => by
    rw [show ([] : List (List ℤ)).join = [] from rfl]
    rfl
  | b :: todo', c, hlen, hdrop => by
    have hc : c < bs.length := by
      simp only [List.length_cons] at hlen
      omega
    have hget := List.drop_eq_getElem_cons hc
    rw [← hdrop] at hget
    have hb : b = bs[c] := (List.cons.injEq _ _ _ _ ▸ hget).1
    have htodo' : todo' = bs.drop (c + 1) := (List.cons.injEq _ _ _ _ ▸ hget).2
    have hbD : b = bs.getD c [] := by
      rw [List.getD_eq_getElem bs [] hc]
      exact hb
    have hbne : b ≠ [] := by
      rw [hbD]
      exact hne _ (getD_block_mem bs c hc)
    have hlen1 : lensSum bs (c + 1) = lensSum bs c + b.length := by
      rw [lensSum_succ_of_lt bs c hc, hbD]
    have hlast1 : lastsSum bs (c + 1) = lastsSum bs c + b.getLastD 0 := by
      rw [lastsSum_succ_of_lt bs c hc, hbD]
    have hbpos : 1 ≤ b.length := List.length_pos.mpr hbne
    rw [show (b :: todo').join = b ++ todo'.join from rfl]
    rw [List.enumFrom_append]
    rw [rescGo_block _ _ b (lensSum bs c) c _ hbne ?_ ?_]
    · rw [show rescaled (b :: todo') (lastsSum bs c)
          = (b.map fun p => p + lastsSum bs c)
              ++ rescaled todo' (lastsSum bs c + b.getLastD 0) from rfl]
      congr 1
      · rw [resc_getD bs c (by omega)]
      · rw [show lastsSum bs c + b.getLastD 0 = lastsSum bs (c + 1) from hlast1.symm]
        rw [show lensSum bs c + b.length = lensSum bs (c + 1) from hlen1.symm]
        exact rescGo_blocks bs hne todo' (c + 1)
          (by simp only [List.length_cons] at hlen; omega) htodo'
    · rw [mem_blockEnds_iff bs _ hne]
      exact ⟨c, hc, by omega⟩
    · intro j hj hmem
      rw [mem_blockEnds_iff bs _ hne] at hmem
      obtain ⟨c', hc', hceq⟩ := hmem
      rcases Nat.lt_or_ge c' c with h' | h'
      · have := lensSum_mono bs (show c' + 1 ≤ c by omega)
        omega
      · have := lensSum_mono bs (show c + 1 ≤ c' + 1 by omega)
        omega

end RescaleLemmas

section InsertLemmas

theorem pyInsert_zero {α : Type} (a : α) : ∀ l : List α, pyInsert 0 a l = a :: l
  | [] => rfl
  | _ :: _ => rfl

theorem pyInsert_append {α : Type} (a : α) :
    ∀ (xs : List α) (k : ℕ) (ys : List α),
      pyInsert (xs.length + k) a (xs ++ ys) = xs ++ pyInsert k a ys
  | [], k, ys => by
    rw [List.nil_append, List.nil_append, show ([] : List α).length + k = k from by
      rw [List.length_nil]; omega]
  | x :: xs, k, ys => by
    rw [List.cons_append]
    rw [show (x :: xs).length + k = (xs.length + k) + 1 from by
      rw [List.length_cons]; omega]
    rw [show pyInsert (xs.length + k + 1) a (x :: (xs ++ ys))
        = x :: pyInsert (xs.length + k) a (xs ++ ys) from rfl]
    rw [pyInsert_append a xs k ys]
    rfl

theorem ok_bind {α β : Type} (a : α) (f : α → Except String β) :
    (Except.ok a >>= f) = f a := rfl

theorem lensSum_congr {α β : Type} (xs : List (List α)) (ys : List (List β))
    (hlen : xs.length = ys.length)
    (hpt : ∀ i, i < xs.length → (xs.getD i []).length = (ys.getD i []).length) :
    ∀ c : ℕ, c ≤ xs.length → lensSum xs c = lensSum ys c
  | 0, _ => rfl
  | c + 1, hc => by
    rw [lensSum_succ_of_lt xs c (by omega), lensSum_succ_of_lt ys c (by omega)]
    rw [lensSum_congr xs ys hlen hpt c (by omega), hpt c (by omega)]

theorem lensSum_all {α : Type} (bs : List (List α)) :
    lensSum bs bs.length = (bs.map List.length).sum := by
  rw [lensSum, List.take_length]

theorem insert_body_eq (cei : List ℕ) (pos : List ℤ) (rat : List RecRate)
    (chromo ce : ℕ) (p : ℤ)
    (h1 : cei.get? chromo = some ce) (h2 : pos.get? (ce + chromo) = some p) :
    insert_body cei (pos, rat) chromo
      = Except.ok (pyInsert (ce + 1 + chromo) (p + 1) pos,
          pyInsert (ce + 1 + chromo) RecRate.log2 rat) := by
  unfold insert_body
  simp only [h1, h2]

end InsertLemmas

section InsertGo

theorem insert_go (bs : List (List ℤ)) (rss : List (List ℚ))
    (hne : ∀ b ∈ bs, b ≠ [])
    (hlen : bs.length = rss.length)
    (hpt : ∀ i, i < bs.length → (bs.getD i []).length = (rss.getD i []).length) :
    ∀ (todo : List (List ℤ)) (c : ℕ) (rodo : List (List ℚ))
      (P : List ℤ) (Q : List RecRate),
      c + todo.length = bs.length → todo = bs.drop c → rodo = rss.drop c →
      P.length = lensSum bs c + c → Q.length = lensSum bs c + c →
      (List.range' c (todo.length - 1)).foldlM (insert_body (blockEnds bs))
          (P ++ rescaled todo (lastsSum bs c), Q ++ (rodo.join).map RecRate.of)
        = Except.ok (P ++ withBreaks todo (lastsSum bs c), Q ++ ratWithBreaks rodo)
  | [], c, rodo, P, Q, hclen, hdrop, hrdrop, hP, hQ => by
    have hr : rodo = [] := by
      have h0 : rodo.length = 0 := by
        simp only [List.length_nil] at hclen
        rw [hrdrop, List.length_drop]
        omega
      exact List.length_eq_zero.mp h0
    subst hr
    rfl
  | [b], c, rodo, P, Q, hclen, hdrop, hrdrop, hP, hQ => by
    obtain ⟨rb, hr⟩ : ∃ rb, rodo = [rb] := by
      have h1 : rodo.length = 1 := by
        simp only [List.length_cons, List.length_nil] at hclen
        rw [hrdrop, List.length_drop]
        omega
      exact List.length_eq_one.mp h1
    subst hr
    rw [show rescaled [b] (lastsSum bs c)
        = (b.map fun p => p + lastsSum bs c) ++ [] from rfl]
    rw [List.append_nil]
    rw [show ([rb] : List (List ℚ)).join = rb ++ [] from rfl, List.append_nil]
    rfl
  | b :: b2 :: todo'', c, rodo, P, Q, hclen, hdrop, hrdrop, hP, hQ => by
    have hc : c < bs.length := by
      simp only [List.length_cons] at hclen
      omega
    have hcr : c < rss.length := by omega
    have hcr1 : c + 1 < rss.length := by
      simp only [List.length_cons] at hclen
      omega
    have hget := List.drop_eq_getElem_cons hc
    rw [← hdrop] at hget
    have hb : b = bs[c] := (List.cons.injEq _ _ _ _ ▸ hget).1
    have htodo' : b2 :: todo'' = bs.drop (c + 1) := (List.cons.injEq _ _ _ _ ▸ hget).2
    have hbD : b = bs.getD c [] := by
      rw [List.getD_eq_getElem bs [] hc]
      exact hb
    have hrodo : rodo = rss.getD c [] :: rss.drop (c + 1) := by
      rw [hrdrop, List.drop_eq_getElem_cons hcr, List.getD_eq_getElem rss [] hcr]
    have hrodo2 : rss.drop (c + 1) = rss.getD (c + 1) [] :: rss.drop (c + 2) := by
      rw [List.drop_eq_getElem_cons hcr1, List.getD_eq_getElem rss [] hcr1]
    have hbne : b ≠ [] := by
      rw [hbD]
      exact hne _ (getD_block_mem bs c hc)
    have hbpos : 1 ≤ b.length := List.length_pos.mpr hbne
    have hlen1 : lensSum bs (c + 1) = lensSum bs c + b.length := by
      rw [lensSum_succ_of_lt bs c hc, hbD]
    have hlast1 : lastsSum bs (c + 1) = lastsSum bs c + b.getLastD 0 := by
      rw [lastsSum_succ_of_lt bs c hc, hbD]
    have hrblen : (rss.getD c []).length = b.length := by
      rw [← hpt c hc, hbD]
    rw [hrodo, hrodo2]
    have h1 : (blockEnds bs).get? c = some (lensSum bs (c + 1) - 1) :=
      blockEnds_get? bs c hc hne
    have h2 : (P ++ rescaled (b :: b2 :: todo'') (lastsSum bs c)).get?
        ((lensSum bs (c + 1) - 1) + c) = some (b.getLastD 0 + lastsSum bs c) := by
      rw [show rescaled (b :: b2 :: todo'') (lastsSum bs c)
          = (b.map fun p => p + lastsSum bs c)
              ++ rescaled (b2 :: todo'') (lastsSum bs c + b.getLastD 0) from rfl]
      rw [show (lensSum bs (c + 1) - 1) + c = P.length + (b.length - 1) from by
        rw [hP]; omega]
      rw [List.get?_append_right (by omega)]
      rw [show P.length + (b.length - 1) - P.length = b.length - 1 from by omega]
      rw [List.get?_append (by rw [List.length_map]; omega)]
      exact get?_map_last _ b 0 hbne
    rw [show (b :: b2 :: todo'').length - 1 = todo''.length + 1 from rfl]
    rw [List.range'_succ c (todo''.length) 1]
    rw [List.foldlM_cons (insert_body (blockEnds bs))
      (P ++ rescaled (b :: b2 :: todo'') (lastsSum bs c),
        Q ++ ((rss.getD c [] :: rss.getD (c + 1) [] :: rss.drop (c + 2)).join).map
          RecRate.of)
      c (List.range' (c + 1) todo''.length 1)]
    rw [insert_body_eq (blockEnds bs) _ _ c (lensSum bs (c + 1) - 1)
      (b.getLastD 0 + lastsSum bs c) h1 h2]
    simp only [ok_bind]
    have hpos1 : pyInsert ((lensSum bs (c + 1) - 1) + 1 + c)
        (b.getLastD 0 + lastsSum bs c + 1)
        (P ++ rescaled (b :: b2 :: todo'') (lastsSum bs c))
      = (P ++ (b.map fun p => p + lastsSum bs c)
            ++ [lastsSum bs c + b.getLastD 0 + 1])
          ++ rescaled (b2 :: todo'') (lastsSum bs (c + 1)) := by
      rw [show rescaled (b :: b2 :: todo'') (lastsSum bs c)
          = (b.map fun p => p + lastsSum bs c)
              ++ rescaled (b2 :: todo'') (lastsSum bs c + b.getLastD 0) from rfl]
      rw [← List.append_assoc]
      rw [show (lensSum bs (c + 1) - 1) + 1 + c
          = (P ++ (b.map fun p => p + lastsSum bs c)).length + 0 from by
        rw [List.length_append, List.length_map, hP]; omega]
      rw [pyInsert_append]
      rw [pyInsert_zero]
      rw [hlast1]
      rw [show b.getLastD 0 + lastsSum bs c + 1
          = lastsSum bs c + b.getLastD 0 + 1 from by ring]
      rw [List.append_cons]
    have hrat1 : pyInsert ((lensSum bs (c + 1) - 1) + 1 + c) RecRate.log2
        (Q ++ ((rss.getD c [] :: rss.getD (c + 1) [] :: rss.drop (c + 2)).join).map
          RecRate.of)
      = (Q ++ (rss.getD c []).map RecRate.of ++ [RecRate.log2])
          ++ ((rss.getD (c + 1) [] :: rss.drop (c + 2)).join).map RecRate.of := by
      rw [show ((rss.getD c [] :: rss.getD (c + 1) [] :: rss.drop (c + 2)).join)
          = rss.getD c [] ++ (rss.getD (c + 1) [] :: rss.drop (c + 2)).join from rfl]
      rw [List.map_append, ← List.append_assoc]
      rw [show (lensSum bs (c + 1) - 1) + 1 + c
          = (Q ++ (rss.getD c []).map RecRate.of).length + 0 from by
        rw [List.length_append, List.length_map, hQ, hrblen]; omega]
      rw [pyInsert_append]
      rw [pyInsert_zero]
      rw [List.append_cons]
    rw [hpos1, hrat1]
    have hclen' : (c + 1) + (b2 :: todo'').length = bs.length := by
      simp only [List.length_cons] at hclen ⊢
      omega
    have hP' : (P ++ (b.map fun p => p + lastsSum bs c)
        ++ [lastsSum bs c + b.getLastD 0 + 1]).length
        = lensSum bs (c + 1) + (c + 1) := by
      simp only [List.length_append, List.length_map, List.length_cons, List.length_nil]
      omega
    have hQ' : (Q ++ (rss.getD c []).map RecRate.of ++ [RecRate.log2]).length
        = lensSum bs (c + 1) + (c + 1) := by
      simp only [List.length_append, List.length_map, List.length_cons, List.length_nil]
      omega
    rw [show todo''.length = (b2 :: todo'').length - 1 from rfl]
    rw [insert_go bs rss hne hlen hpt (b2 :: todo'') (c + 1)
      (rss.getD (c + 1) [] :: rss.drop (c + 2))
      (P ++ (b.map fun p => p + lastsSum bs c)
        ++ [lastsSum bs c + b.getLastD 0 + 1])
      (Q ++ (rss.getD c []).map RecRate.of ++ [RecRate.log2])
      hclen' htodo' hrodo2.symm hP' hQ']
    rw [show withBreaks (b :: b2 :: todo'') (lastsSum bs c)
        = (b.map fun p => p + lastsSum bs c)
            ++ (lastsSum bs c + b.getLastD 0 + 1)
              :: withBreaks (b2 :: todo'') (lastsSum bs c + b.getLastD 0) from rfl]
    rw [show ratWithBreaks (rss.getD c [] :: rss.getD (c + 1) [] :: rss.drop (c + 2))
        = (rss.getD c []).map RecRate.of
            ++ RecRate.log2
              :: ratWithBreaks (rss.getD (c + 1) [] :: rss.drop (c + 2)) from rfl]
    rw [hlast1]
    simp only [List.append_assoc, List.singleton_append]

end InsertGo

section BreakInvariants

theorem withBreaks_length :
    ∀ (bs : List (List ℤ)) (off : ℤ),
      (withBreaks bs off).length = (bs.map List.length).sum + (bs.length - 1)
  | [], _ => rfl
  | [b], _ => by
    simp only [withBreaks, List.length_map, List.map_cons, List.map_nil,
      List.sum_cons, List.sum_nil, List.length_cons, List.length_nil]
    omega
  | b :: c :: rest, off => by
    rw [show withBreaks (b :: c :: rest) off
        = (b.map fun p => p + off)
            ++ (off + b.getLastD 0 + 1)
              :: withBreaks (c :: rest) (off + b.getLastD 0) from rfl]
    rw [List.length_append, List.length_map, List.length_cons]
    rw [withBreaks_length (c :: rest) (off + b.getLastD 0)]
    simp only [List.map_cons, List.sum_cons, List.length_cons]
    omega

theorem ratWithBreaks_length :
    ∀ rss : List (List ℚ),
      (ratWithBreaks rss).length = (rss.map List.length).sum + (rss.length - 1)
  | [] => rfl
  | [rb] => by
    simp only [ratWithBreaks, List.length_map, List.map_cons, List.map_nil,
      List.sum_cons, List.sum_nil, List.length_cons, List.length_nil]
    omega
  | rb :: c :: rest => by
    rw [show ratWithBreaks (rb :: c :: rest)
        = rb.map RecRate.of ++ RecRate.log2 :: ratWithBreaks (c :: rest) from rfl]
    rw [List.length_append, List.length_map, List.length_cons]
    rw [ratWithBreaks_length (c :: rest)]
    simp only [List.map_cons, List.sum_cons, List.length_cons]
    omega

theorem chain_shift_block (off : ℤ) :
    ∀ (b : List ℤ) (prev : ℤ) (L : List ℤ),
      List.Chain' (fun a b : ℤ => a < b) b → b ≠ [] →
      prev < b.headD 0 + off →
      List.Chain' (fun a b : ℤ => a < b) ((b.getLastD 0 + off) :: L) →
      List.Chain' (fun a b : ℤ => a < b) (prev :: (b.map (fun p => p + off) ++ L))
  | [], _, _, _, hb, _, _ => absurd rfl hb
  | [x], prev, L, _, _, hfst, hcont => by
    rw [show ([x] : List ℤ).map (fun p => p + off) ++ L = (x + off) :: L from rfl]
    rw [List.chain'_cons]
    refine ⟨by simpa using hfst, ?_⟩
    simpa using hcont
  | x :: y :: b', prev, L, hchain, _, hfst, hcont => by
    rw [show (x :: y :: b').map (fun p => p + off) ++ L
        = (x + off) :: ((y :: b').map (fun p => p + off) ++ L) from rfl]
    rw [List.chain'_cons]
    refine ⟨by simpa using hfst, ?_⟩
    have hxy : x < y := (List.chain'_cons.mp hchain).1
    refine chain_shift_block off (y :: b') (x + off) L
      (List.chain'_cons.mp hchain).2 (by simp) ?_ ?_
    · simp only [List.headD_cons]
      omega
    · rw [show (y :: b').getLastD 0 = (x :: y :: b').getLastD 0 from
        (List.getLastD_cons x 0 (y :: b')).symm]
      exact hcont

theorem withBreaks_chain :
    ∀ (bs : List (List ℤ)) (off prev : ℤ),
      bs ≠ [] →
      (∀ b ∈ bs, List.Chain' (fun a b : ℤ => a < b) b) →
      (∀ b ∈ bs, b ≠ []) →
      (∀ b ∈ bs.tail, 2 ≤ b.headD 0) →
      prev < (bs.headD []).headD 0 + off →
      List.Chain' (fun a b : ℤ => a < b) (prev :: withBreaks bs off)
  | [], _, _, hbs, _, _, _, _ => absurd rfl hbs
  | [b], off, prev, _, hchain, hne, _, hfst => by
    have h := chain_shift_block off b prev [] (hchain b (by simp)) (hne b (by simp))
      (by simpa using hfst) (List.chain'_singleton _)
    rw [List.append_nil] at h
    exact h
  | b :: c :: rest, off, prev, _, hchain, hne, htail, hfst => by
    rw [show withBreaks (b :: c :: rest) off
        = (b.map fun p => p + off)
            ++ (off + b.getLastD 0 + 1)
              :: withBreaks (c :: rest) (off + b.getLastD 0) from rfl]
    refine chain_shift_block off b prev _ (hchain b (by simp)) (hne b (by simp))
      (by simpa using hfst) ?_
    rw [List.chain'_cons]
    refine ⟨by omega, ?_⟩
    have hc2 : 2 ≤ c.headD 0 := htail c (by simp)
    refine withBreaks_chain (c :: rest) (off + b.getLastD 0) (off + b.getLastD 0 + 1)
      (by simp) (fun b' hb' => hchain b' (by simp [hb']))
      (fun b' hb' => hne b' (by simp [hb']))
      (fun b' hb' => htail b' (by
        rw [List.tail_cons] at hb' ⊢
        exact List.mem_cons_of_mem c hb')) ?_
    simp only [List.headD_cons]
    omega

theorem count_log2_map :
    ∀ rb : List ℚ, (rb.map RecRate.of).count RecRate.log2 = 0
  | [] => rfl
  | r :: t => by
    rw [List.map_cons, List.count_cons, count_log2_map t]
    simp

theorem ratWithBreaks_count :
    ∀ rss : List (List ℚ),
      (ratWithBreaks rss).count RecRate.log2 = rss.length - 1
  | [] => rfl
  | [rb] => by
    rw [show ratWithBreaks [rb] = rb.map RecRate.of from rfl, count_log2_map]
    simp
  | rb :: c :: rest => by
    rw [show ratWithBreaks (rb :: c :: rest)
        = rb.map RecRate.of ++ RecRate.log2 :: ratWithBreaks (c :: rest) from rfl]
    rw [List.count_append, count_log2_map, List.count_cons, ratWithBreaks_count (c :: rest)]
    rw [if_pos (by decide)]
    simp only [List.length_cons]
    omega

end BreakInvariants

section RecombinationMapBlocks

theorem get_recombination_map_blocks (bs : List (List ℤ)) (rss : List (List ℚ))
    (hbs : bs ≠ []) (hlen : bs.length = rss.length)
    (hpt : ∀ i, i < bs.length → (bs.getD i []).length = (rss.getD i []).length)
    (hne : ∀ b ∈ bs, b ≠ []) :
    get_recombination_map (tableChromFrom 1 bs) bs.join rss.join
      = Except.ok ((bs.length : ℤ), ratWithBreaks rss, 0 :: withBreaks bs 0) := by
  have hresc := rescGo_blocks bs hne bs 0 (by omega) rfl
  rw [show lensSum bs 0 = 0 from rfl, show lastsSum bs 0 = 0 from rfl] at hresc
  have hins := insert_go bs rss hne hlen hpt bs 0 rss [] [] (by omega) rfl rfl rfl rfl
  rw [show lastsSum bs 0 = 0 from rfl] at hins
  simp only [List.nil_append] at hins
  simp only [get_recombination_map]
  rw [listMax_tableChromFrom bs hbs hne]
  rw [chr_ends_index_blocks bs hbs hne]
  rw [join_getD_blockEnds bs hne]
  rw [rescale_loop_eq_go]
  rw [show (bs.join).enum = List.enumFrom 0 bs.join from rfl]
  rw [hresc]
  rw [show ((bs.length : ℤ)).toNat = bs.length from Int.toNat_natCast _]
  unfold insert_loop
  rw [List.range_eq_range']
  rw [hins]
  rfl

end RecombinationMapBlocks

/-- C6 (amended): for `make_rec_map` with `nchr ≥ 1` chromosome ends that
start at 1 or later and leave a gap of at least 2 between consecutive ends,
and for `get_recombination_map` on a well-formed per-chromosome genome
table (nonempty blocks of strictly increasing local positions, first block
starting at 1 or later and every later block at 2 or later, rate blocks of
matching shape), the resulting genome map satisfies: the position sequence
has exactly one more element than the rate sequence, the rate sequence has
`2 * nchr - 1` elements, positions are strictly increasing, every synthetic
breakpoint rate inserted between adjacent chromosomes is `math.log(2)`, and
there are exactly `nchr - 1` such breakpoints (none when `nchr = 1`). -/
theorem C6_genome_map_invariants
    (nchr : ℕ) (c_rates : List ℚ) (c_ends : List ℤ)
    (hn : 1 ≤ nchr)
    (h0 : 1 ≤ c_ends.getD 0 0)
    (hgap : ∀ i, i < nchr - 1 → c_ends.getD i 0 + 2 ≤ c_ends.getD (i + 1) 0)
    (bs : List (List ℤ)) (rss : List (List ℚ))
    (hbs : bs ≠ [])
    (hblen : bs.length = rss.length)
    (hpt : ∀ i, i < bs.length → (bs.getD i []).length = (rss.getD i []).length)
    (hbne : ∀ b ∈ bs, b ≠ [])
    (hchain : ∀ b ∈ bs, List.Chain' (fun a b : ℤ => a < b) b)
    (hhead0 : 1 ≤ (bs.headD []).headD 0)
    (hheads : ∀ b ∈ bs.tail, 2 ≤ b.headD 0) :
    ((make_rec_map nchr c_rates c_ends).1.length
        = (make_rec_map nchr c_rates c_ends).2.length + 1
      ∧ (make_rec_map nchr c_rates c_ends).2.length = 2 * nchr - 1
      ∧ List.Chain' (fun a b : ℤ => a < b) (make_rec_map nchr c_rates c_ends).1
      ∧ (∀ j, j < nchr - 1 →
          (make_rec_map nchr c_rates c_ends).2.getD (2 * j + 1) (RecRate.of 0)
            = RecRate.log2)
      ∧ (make_rec_map nchr c_rates c_ends).2.count RecRate.log2 = nchr - 1)
    ∧ (get_recombination_map (tableChromFrom 1 bs) bs.join rss.join
        = Except.ok ((bs.length : ℤ), ratWithBreaks rss, 0 :: withBreaks bs 0)
      ∧ (0 :: withBreaks bs 0).length = (ratWithBreaks rss).length + 1
      ∧ List.Chain' (fun a b : ℤ => a < b) (0 :: withBreaks bs 0)
      ∧ (ratWithBreaks rss).count RecRate.log2 = bs.length - 1) := by
  have hL1 : (make_rec_map nchr c_rates c_ends).1.length = 2 * (nchr - 1) + 2 := by
    rw [show (make_rec_map nchr c_rates c_ends).1
        = 0 :: (((List.range (nchr - 1)).flatMap
              fun i => [c_ends.getD i 0, c_ends.getD i 0 + 1])
            ++ [c_ends.getD (nchr - 1) 0]) from rfl]
    simp only [List.length_cons, List.length_append, List.length_nil]
    rw [flatMap_pair_length]
  have hL2 : (make_rec_map nchr c_rates c_ends).2.length = 2 * (nchr - 1) + 1 := by
    rw [show (make_rec_map nchr c_rates c_ends).2
        = ((List.range (nchr - 1)).flatMap
              fun i => [RecRate.of (c_rates.getD i 0), RecRate.log2])
            ++ [RecRate.of (c_rates.getD (nchr - 1) 0)] from rfl]
    simp only [List.length_append, List.length_cons, List.length_nil]
    rw [flatMap_pair_length]
  have hsum : (bs.map List.length).sum = (rss.map List.length).sum := by
    calc (bs.map List.length).sum = lensSum bs bs.length := (lensSum_all bs).symm
      _ = lensSum rss bs.length := lensSum_congr bs rss hblen hpt bs.length le_rfl
      _ = lensSum rss rss.length := by rw [hblen]
      _ = (rss.map List.length).sum := lensSum_all rss
  have hbs1 : 1 ≤ bs.length := List.length_pos.mpr hbs
  refine ⟨⟨?_, ?_, ?_, ?_, ?_⟩, ?_, ?_, ?_, ?_⟩
  · rw [hL1, hL2]
  · rw [hL2]
    omega
  · exact make_pos_chain (fun i => c_ends.getD i 0) (nchr - 1) h0 hgap
  · intro j hj
    rw [show (make_rec_map nchr c_rates c_ends).2
        = ((List.range (nchr - 1)).flatMap
              fun i => [RecRate.of (c_rates.getD i 0), RecRate.log2])
            ++ [RecRate.of (c_rates.getD (nchr - 1) 0)] from rfl]
    rw [List.getD_append _ _ _ _ (by rw [flatMap_pair_length]; omega)]
    exact flatMap_pair_getD_odd _ _ _ _ j hj
  · rw [show (make_rec_map nchr c_rates c_ends).2
        = ((List.range (nchr - 1)).flatMap
              fun i => [RecRate.of (c_rates.getD i 0), RecRate.log2])
            ++ [RecRate.of (c_rates.getD (nchr - 1) 0)] from rfl]
    rw [List.count_append, flatMap_log2_count]
    simp
  · exact get_recombination_map_blocks bs rss hbs hblen hpt hbne
  · rw [List.length_cons, withBreaks_length, ratWithBreaks_length, hsum, hblen]
  · refine withBreaks_chain bs 0 0 hbs hchain hbne hheads ?_
    omega
  · rw [ratWithBreaks_count, hblen]

/-- C6 counterexample to the original claim: the chromosome ends `[10, 11]`
are strictly increasing, yet the position sequence built by `make_rec_map`
is `[0, 10, 11, 11]`, which is not strictly increasing (the synthetic
breakpoint `10 + 1` collides with the next chromosome end `11`). -/
theorem C6_counterexample :
    List.Chain' (fun a b : ℤ => a < b) [10, 11]
      ∧ (make_rec_map 2 [1/2, 1/3] [10, 11]).1 = [0, 10, 11, 11]
      ∧ ¬ List.Chain' (fun a b : ℤ => a < b) (make_rec_map 2 [1/2, 1/3] [10, 11]).1 :=
  ⟨by decide, rfl, by decide⟩

/-- Witness for C6: a concrete three-chromosome genome map satisfying all
hypotheses. -/
theorem C6_witness :
    List.Chain' (fun a b : ℤ => a < b) (make_rec_map 3 [1/2, 1/3, 1/4] [10, 20, 30]).1
      ∧ get_recombination_map
            (tableChromFrom 1 [[1, 5, 10], [2, 7], [3, 9]])
            ([[1, 5, 10], [2, 7], [3, 9]] : List (List ℤ)).join
            ([[1/2, 1/2, 1/2], [1/3, 1/3], [1/4, 1/4]] : List (List ℚ)).join
          = Except.ok ((3 : ℤ),
              ratWithBreaks [[1/2, 1/2, 1/2], [1/3, 1/3], [1/4, 1/4]],
              0 :: withBreaks [[1, 5, 10], [2, 7], [3, 9]] 0) := by
  have h := C6_genome_map_invariants 3 [1/2, 1/3, 1/4] [10, 20, 30]
    (by decide) (by decide) (by decide)
    [[1, 5, 10], [2, 7], [3, 9]] [[1/2, 1/2, 1/2], [1/3, 1/3], [1/4, 1/4]]
    (by decide) (by decide) (by decide) (by decide) (by decide) (by decide) (by decide)
  exact ⟨h.1.2.2.1, h.2.1⟩
